import Mathlib

/-!
# Verification of the BOP dashboard document core

Shallow embedding of the folder-resolution, document-merging, ledger-editing and
view-model-projection logic of the BOP dashboard (src/js/drive.js and the checklist /
inventario modules), together with proofs of the specified properties.

Conventions of the embedding:
* JS strings are Lean `String`s; the handful of host string primitives the code uses
  (`trim`, `split`, `join`) are modelled explicitly below with JS semantics.
* The host `Date` object (used only by `getWeekStart`) is modelled by proleptic
  Gregorian civil-date arithmetic on day numbers (days since 1970-01-01).
* Network-touching functions are modelled as pure functions of an explicit
  environment (auth token plus response oracles) that also return the list of
  network requests they issue.
* JS numbers are modelled as `Int`/`Nat`, and the single floating-point expression
  (`Math.round((completed / total) * 100)`) as exact rational arithmetic.
-/

namespace Bop

/-! ## Calendar model (for `Drive.getWeekStart`)

`getWeekStart` in drive.js parses a `YYYY-MM-DD` string into numbers, builds a host
`Date(year, month - 1, day)`, reads `getDay()` (0 = Sunday), and shifts the date by
`diff = (dayOfWeek === 0 ? -6 : 1 - dayOfWeek)` days via `setDate`.  We model the
date as the triple `(y, m, d)` and the host calendar by the standard civil-calendar
bijection with day numbers.  Since `diff ∈ [-6, 0]`, the `setDate` renormalisation
borrows from at most the preceding month, which the model performs explicitly. -/

/-- Gregorian leap-year test (the calendar rule implemented by the host `Date`). -/
def isLeapYear (y : Int) : Bool :=
  y % 4 = 0 && (y % 100 ≠ 0 || y % 400 = 0)

/-- Number of days of month `m` of year `y` in the Gregorian calendar. -/
def daysInMonth (y m : Int) : Int :=
  if m = 2 then (if isLeapYear y then 29 else 28)
  else if m = 4 ∨ m = 6 ∨ m = 9 ∨ m = 11 then 30
  else 31

/-- Day number (days since 1970-01-01) of the civil date `(y, m, d)`; the standard
days-from-civil algorithm.  Divisors are positive, and `/` on `Int` is Euclidean
division, which coincides with floor division here. -/
def daysFromCivil (y m d : Int) : Int :=
  let yy := if m ≤ 2 then y - 1 else y
  let era := yy / 400
  let yoe := yy - era * 400
  let mp := if m ≤ 2 then m + 9 else m - 3
  let doy := (153 * mp + 2) / 5 + d - 1
  let doe := yoe * 365 + yoe / 4 - yoe / 100 + doy
  era * 146097 + doe - 719468

/-- Day of week of a civil date, with the host `Date.getDay` convention
(0 = Sunday, 1 = Monday, ...); 1970-01-01 was a Thursday (= 4). -/
def dayOfWeekCivil (y m d : Int) : Int :=
  (daysFromCivil y m d + 4) % 7

/-- Renormalisation performed by the host `Date.setDate` when the day-of-month
field is set to `e ≤ 0`: borrow from the preceding month.  (For the shifts of
`getWeekStart`, `e ≥ d - 6 ≥ -5`, so at most one borrow can occur.) -/
def borrowMonth (y m e : Int) : Int × Int × Int :=
  if 1 ≤ e then (y, m, e)
  else if m = 1 then (y - 1, 12, daysInMonth (y - 1) 12 + e)
  else (y, m - 1, daysInMonth y (m - 1) + e)

/-- Model of `Drive.getWeekStart` (drive.js): from the parsed date `(y, m, d)`,
read the day of week, shift by `diff = (dow = 0 ? -6 : 1 - dow)` days with the
host `setDate` renormalisation, and return the resulting `(year, month, day)`
triple. -/
def getWeekStart (y m d : Int) : Int × Int × Int :=
  let dow := dayOfWeekCivil y m d
  let diff := if dow = 0 then -6 else 1 - dow
  borrowMonth y m (d + diff)


/-! ## JS string primitives

The ledger editor uses the host string operations `trim`, `split('\n')`,
`split(',')`, `join('\n')` and `replace(/^\uFEFF/, '')`.  They are modelled
here over `List Char` (a Lean `String` is its list of characters). -/

/-- The character class treated as whitespace by the JS `String.prototype.trim`
(ECMAScript WhiteSpace and LineTerminator, including NBSP and the BOM). -/
def isJsSpace (c : Char) : Bool :=
  c = ' ' || c = '\t' || c = '\n' || c = '\r' ||
  c.val = 11 || c.val = 12 || c.val = 160 || c.val = 5760 ||
  (8192 ≤ c.val && c.val ≤ 8202) || c.val = 8232 || c.val = 8233 ||
  c.val = 8239 || c.val = 8287 || c.val = 12288 || c.val = 65279

/-- Drop leading and trailing JS whitespace from a character list. -/
def trimChars (l : List Char) : List Char :=
  ((l.dropWhile isJsSpace).reverse.dropWhile isJsSpace).reverse

/-- Model of the JS `String.prototype.trim`. -/
def jsTrim (s : String) : String :=
  String.mk (trimChars s.toList)

/-- Model of the JS `String.prototype.split` with a single-character separator:
`"".split(sep) = [""]`, separators delimit possibly empty pieces. -/
def splitOnChar (sep : Char) : List Char → List (List Char)
  | [] => [[]]
  | c :: cs =>
    match splitOnChar sep cs with
    | [] => [[]]
    | h :: t => if c = sep then [] :: h :: t else (c :: h) :: t

/-- Split a string into its newline-separated lines, JS `split('\n')`. -/
def splitLines (s : String) : List String :=
  (splitOnChar '\n' s.toList).map String.mk

/-- Split a string at commas, JS `split(',')`. -/
def splitCommas (s : String) : List String :=
  (splitOnChar ',' s.toList).map String.mk

/-- JS `Array.prototype.join('\n')`. -/
def joinLines (ls : List String) : String :=
  String.mk (List.intercalate ['\n'] (ls.map String.toList))

/-- JS `replace(/^\uFEFF/, '')`: remove one leading byte-order mark, if present. -/
def stripLeadingBom (s : String) : String :=
  match s.toList with
  | [] => s
  | c :: cs => if c = '\uFEFF' then String.mk cs else s

/-! ## Discrepancy ledger editor: the pure CSV core of `Drive.removeDiscrepancia`

`removeDiscrepancia` (drive.js, lines 489-584) downloads `discrepancias.csv`,
trims it, splits it into lines, and either returns early (fewer than two lines),
throws (header without an `Articulo` column), or uploads the header plus every
non-blank data row whose key column differs from the target, BOM-prefixed.
The network part is modelled separately below; this is the content transform. -/

/-- Outcome of the CSV transform: success without an upload, success uploading
the given new content, or the fatal missing-key-column error (a thrown
`Articulo column not found` before any upload). -/
inductive RemoveResult where
  | noUpload : RemoveResult
  | upload (newContent : String) : RemoveResult
  | malformed : RemoveResult
deriving DecidableEq, Repr

/-- The line list the editor works on: `csvContent.trim().split('\n')`. -/
def ledgerLines (s : String) : List String :=
  splitLines (jsTrim s)

/-- Header columns: `header.split(',').map(h => h.trim().replace(/^\uFEFF/, ''))`. -/
def headerCols (header : String) : List String :=
  (splitCommas header).map (fun h => stripLeadingBom (jsTrim h))

/-- Index of the key column: `headerCols.findIndex(h => h === 'Articulo')`,
with `none` for the JS `-1`. -/
def articuloIndex (header : String) : Option Nat :=
  (headerCols header).findIdx? (fun h => h == "Articulo")

/-- One iteration of the filter loop: trim the raw line, skip it when blank,
read the key column (missing or empty cell reads as `""`), drop the row when
the trimmed key equals the target, keep the trimmed line otherwise. -/
def keepRow (idx : Nat) (articulo rawLine : String) : Option String :=
  let line := jsTrim rawLine
  if line = "" then none
  else
    let cols := splitCommas line
    let rowArticulo := jsTrim (cols.getD idx "")
    if rowArticulo = articulo then none else some line

/-- The uploaded replacement content: one byte-order mark, then the header and
the kept lines joined with newlines (`'\uFEFF' + filteredLines.join('\n')`). -/
def serializeLedger (header : String) (kept : List String) : String :=
  "\uFEFF" ++ joinLines (header :: kept)

/-- The pure CSV transform of `Drive.removeDiscrepancia` applied to the
downloaded ledger content and the target key. -/
def removeDiscrepanciaCsv (csvContent articulo : String) : RemoveResult :=
  let lines := ledgerLines csvContent
  if lines.length < 2 then RemoveResult.noUpload
  else
    let header := lines.headD ""
    match articuloIndex header with
    | none => RemoveResult.malformed
    | some idx =>
      RemoveResult.upload
        (serializeLedger header (lines.tail.filterMap (keepRow idx articulo)))

/-! Observables of a ledger content, phrased with the same parse the editor
itself uses: its header line, and its data rows (the trimmed non-blank lines
after the header). -/

/-- The header line of a ledger content (first line after trimming). -/
def ledgerHeader (s : String) : String :=
  (ledgerLines s).headD ""

/-- The data rows of a ledger content: trimmed non-blank lines after the header. -/
def ledgerDataRows (s : String) : List String :=
  (ledgerLines s).tail.filterMap
    (fun l => if jsTrim l = "" then none else some (jsTrim l))

/-- The key of a data row, given the key-column index: the trimmed cell at that
index (missing cells read as `""`). -/
def rowKeyAt (idx : Nat) (row : String) : String :=
  jsTrim ((splitCommas row).getD idx "")

/-- The header line as stored in an uploaded ledger file (the editor prepends
exactly one byte-order mark to the payload it uploads). -/
def uploadedHeader (c : String) : String :=
  (splitLines (stripLeadingBom c)).headD ""

/-- The data lines as stored in an uploaded ledger file. -/
def uploadedDataRows (c : String) : List String :=
  (splitLines (stripLeadingBom c)).tail

/-! ## Remote store client: auth check and network-effect model

The network-touching operations are modelled as pure functions of a `NetEnv`
(the auth collaborator's current token plus deterministic response oracles)
that also return the list of network requests they issue.  Query strings are
abbreviated to `parentId:name` — their exact shape plays no role in the claims. -/

/-- Errors thrown by the drive module (`throw new Error(...)` sites). -/
inductive DriveError where
  | notAuthenticated : DriveError
  | apiFailed : DriveError
  | downloadFailed : DriveError
  | uploadFailed : DriveError
  | storeFolderNotFound : DriveError
  | createFolderFailed : DriveError
  | malformedLedger : DriveError
deriving DecidableEq, Repr

/-- A file entry as returned by the search endpoint. -/
structure DriveFile where
  id : String
  name : String
deriving DecidableEq, Repr

/-- A network request issued by the client. -/
inductive NetRequest where
  | searchReq (query : String) : NetRequest
  | downloadReq (fileId : String) : NetRequest
  | uploadReq (fileId : String) (content : String) : NetRequest
  | createFolderReq (name parentId : String) : NetRequest
deriving DecidableEq, Repr

/-- The environment of a client operation: the token returned by
`Auth.getToken()` and the provider's responses (`none` models a non-ok
transport response). -/
structure NetEnv where
  token : Option String
  searchResult : String → Option (List DriveFile)
  downloadText : String → Option String
  uploadOk : String → Bool
  createdFolderId : String → Option String

/-- The module-level `folderCache` map, as an association list (later
`cacheSet` entries shadow earlier ones, like `Map.set`). -/
def Cache : Type := List (String × String)

/-- Model of `folderCache.get`. -/
def cacheGet (c : Cache) (k : String) : Option String :=
  (c.find? (fun p => p.1 == k)).map (fun p => p.2)

/-- Model of `folderCache.set`. -/
def cacheSet (c : Cache) (k v : String) : Cache :=
  (k, v) :: c

/-- Model of `apiRequest` (drive.js): fail with the unauthenticated error
before issuing any request when `Auth.getToken()` is null; otherwise issue the
request and propagate a non-ok response as an API error. -/
def apiRequest (env : NetEnv) (endpoint query : String) :
    Except DriveError (List DriveFile) × List NetRequest :=
  match env.token with
  | none => (Except.error DriveError.notAuthenticated, [])
  | some _ =>
    match env.searchResult query with
    | none => (Except.error DriveError.apiFailed, [NetRequest.searchReq query])
    | some files => (Except.ok files, [NetRequest.searchReq query])

/-- Model of `search` (drive.js): an `apiRequest` against the files endpoint. -/
def searchFiles (env : NetEnv) (query : String) :
    Except DriveError (List DriveFile) × List NetRequest :=
  apiRequest env "files" query

/-- Model of `downloadFile` (drive.js): same pre-request token check. -/
def downloadFile (env : NetEnv) (fileId : String) :
    Except DriveError String × List NetRequest :=
  match env.token with
  | none => (Except.error DriveError.notAuthenticated, [])
  | some _ =>
    match env.downloadText fileId with
    | none => (Except.error DriveError.downloadFailed, [NetRequest.downloadReq fileId])
    | some content => (Except.ok content, [NetRequest.downloadReq fileId])

/-- Model of `findInventarioFolder` (drive.js): requires a cached store id,
answers from the cache when possible, otherwise searches (returning `none`
when the folder does not exist, and caching it when it does). -/
def findInventarioFolder (env : NetEnv) (cache : Cache) (storeName : String) :
    Except DriveError (Option String) × List NetRequest × Cache :=
  match cacheGet cache ("store_" ++ storeName) with
  | none => (Except.error DriveError.storeFolderNotFound, [], cache)
  | some storeId =>
    match cacheGet cache ("inventario_" ++ storeName) with
    | some cachedId => (Except.ok (some cachedId), [], cache)
    | none =>
      match searchFiles env (storeId ++ ":Inventario") with
      | (Except.error e, reqs) => (Except.error e, reqs, cache)
      | (Except.ok [], reqs) => (Except.ok none, reqs, cache)
      | (Except.ok (f :: _), reqs) =>
        (Except.ok (some f.id), reqs, cacheSet cache ("inventario_" ++ storeName) f.id)

/-- Model of `findOrCreateInventarioFolder` (drive.js).  The creation branch
reads `Auth.getToken()` without a null check and issues the creation request;
it is only reachable after a successful (hence authenticated) search. -/
def findOrCreateInventarioFolder (env : NetEnv) (cache : Cache) (storeName : String) :
    Except DriveError String × List NetRequest × Cache :=
  match findInventarioFolder env cache storeName with
  | (Except.error e, reqs, c) => (Except.error e, reqs, c)
  | (Except.ok (some id), reqs, c) => (Except.ok id, reqs, c)
  | (Except.ok none, reqs, c) =>
    let storeId := (cacheGet c ("store_" ++ storeName)).getD ""
    match env.createdFolderId storeId with
    | none =>
      (Except.error DriveError.createFolderFailed,
       reqs ++ [NetRequest.createFolderReq "Inventario" storeId], c)
    | some newId =>
      (Except.ok newId,
       reqs ++ [NetRequest.createFolderReq "Inventario" storeId],
       cacheSet c ("inventario_" ++ storeName) newId)

/-- Model of the full `removeDiscrepancia` (drive.js): resolve or create the
Inventario folder, search for the ledger file (absence is success), download
it (a raw fetch with the captured bearer), transform the content with
`removeDiscrepanciaCsv`, and upload the new content when the transform asks
for it. -/
def removeDiscrepanciaM (env : NetEnv) (cache : Cache) (storeName articulo : String) :
    Except DriveError Bool × List NetRequest × Cache :=
  match findOrCreateInventarioFolder env cache storeName with
  | (Except.error e, reqs, c) => (Except.error e, reqs, c)
  | (Except.ok invId, reqs, c) =>
    match searchFiles env (invId ++ ":discrepancias.csv") with
    | (Except.error e, reqs2) => (Except.error e, reqs ++ reqs2, c)
    | (Except.ok [], reqs2) => (Except.ok true, reqs ++ reqs2, c)
    | (Except.ok (f :: _), reqs2) =>
      match env.downloadText f.id with
      | none =>
        (Except.error DriveError.downloadFailed,
         reqs ++ reqs2 ++ [NetRequest.downloadReq f.id], c)
      | some csvContent =>
        match removeDiscrepanciaCsv csvContent articulo with
        | RemoveResult.noUpload =>
          (Except.ok true, reqs ++ reqs2 ++ [NetRequest.downloadReq f.id], c)
        | RemoveResult.malformed =>
          (Except.error DriveError.malformedLedger,
           reqs ++ reqs2 ++ [NetRequest.downloadReq f.id], c)
        | RemoveResult.upload newContent =>
          if env.uploadOk f.id then
            (Except.ok true,
             reqs ++ reqs2 ++ [NetRequest.downloadReq f.id,
               NetRequest.uploadReq f.id newContent], c)
          else
            (Except.error DriveError.uploadFailed,
             reqs ++ reqs2 ++ [NetRequest.downloadReq f.id,
               NetRequest.uploadReq f.id newContent], c)

/-! ## Document locator and merger (`findAllFiles`, `getChecklistForDate`)

The role searches and downloads are fan-out requests; the merge is a pure
function of their outcomes.  We abstract a located file as a value of type
`φ` and a downloaded checklists mapping as an association list over `κ`
(JS object literals have unique keys in insertion order; the value
`none` of the download oracle covers both a failed download and a JSON
payload without a checklists field, which the loop skips identically). -/

/-- A located candidate file with its provenance flag (`isAdmin` is true for
the Admin/Today and Admin/History roles). -/
structure FoundFile (φ : Type) where
  file : φ
  isAdmin : Bool
deriving DecidableEq, Repr

/-- Model of `findAllFiles` (drive.js): the per-role search results pushed in
the fixed order Today, History, Admin/Today, Admin/History, the admin roles
flagged. -/
def findAllFiles {φ : Type} (today history adminToday adminHistory : Option φ) :
    List (FoundFile φ) :=
  (today.map (fun f => FoundFile.mk f false)).toList ++
  (history.map (fun f => FoundFile.mk f false)).toList ++
  (adminToday.map (fun f => FoundFile.mk f true)).toList ++
  (adminHistory.map (fun f => FoundFile.mk f true)).toList

/-- The four per-role search outcomes for one filename class. -/
structure RoleSlots (φ : Type) where
  today : Option φ
  history : Option φ
  adminToday : Option φ
  adminHistory : Option φ

/-- The located files of one filename class, in role order. -/
def RoleSlots.found {φ : Type} (r : RoleSlots φ) : List (FoundFile φ) :=
  findAllFiles r.today r.history r.adminToday r.adminHistory

/-- The per-class location outcomes for the three derived filenames. -/
structure LocatedSlots (φ : Type) where
  daily : RoleSlots φ
  weekly : RoleSlots φ
  monthly : RoleSlots φ

/-- The candidate list `[...dailyFiles, ...weeklyFiles, ...monthlyFiles]`. -/
def allCandidateFiles {φ : Type} (loc : LocatedSlots φ) : List (FoundFile φ) :=
  loc.daily.found ++ loc.weekly.found ++ loc.monthly.found

/-- A merged checklist entry: the checklist content together with the
provenance tag written into `_isAdmin`. -/
structure TaggedChecklist (κ : Type) where
  data : κ
  isAdmin : Bool
deriving DecidableEq, Repr

/-- JS object assignment `obj[name] = v`: replace the value in place when the
key exists (insertion order preserved), append the entry otherwise. -/
def objSet {κ : Type} : List (String × κ) → String → κ → List (String × κ)
  | [], k, v => [(k, v)]
  | p :: t, k, v => if p.1 = k then (k, v) :: t else p :: objSet t k v

/-- JS object read `obj[name]`. -/
def objGet {κ : Type} : List (String × κ) → String → Option κ
  | [], _ => none
  | p :: t, k => if p.1 = k then some p.2 else objGet t k

/-- The merge loop of `getChecklistForDate`: for each download outcome in
processing order, write every checklists entry of a successful document into
the accumulator, tagged with the document admin flag. -/
def combineResults {κ : Type}
    (results : List (Option (List (String × κ) × Bool))) :
    List (String × TaggedChecklist κ) :=
  results.foldl
    (fun acc r =>
      match r with
      | none => acc
      | some (doc, adm) =>
        doc.foldl (fun acc2 kv => objSet acc2 kv.1 (TaggedChecklist.mk kv.2 adm)) acc)
    []

/-- The merged per-date bundle. -/
structure Bundle (κ : Type) where
  date : String
  checklists : List (String × TaggedChecklist κ)

/-- Model of `getChecklistForDate` (drive.js): given the located files of the
three filename classes and the download oracle `dl`, combine all successfully
downloaded checklists mappings; an empty candidate list or an empty combined
mapping yields the absent result. -/
def getChecklistForDate {φ κ : Type} (dl : φ → Option (List (String × κ)))
    (dateStr : String) (loc : LocatedSlots φ) : Option (Bundle κ) :=
  let allFiles := allCandidateFiles loc
  if allFiles.isEmpty then none
  else
    let results := allFiles.map (fun f => (dl f.file).map (fun doc => (doc, f.isAdmin)))
    let combined := combineResults results
    if combined.isEmpty then none
    else some (Bundle.mk dateStr combined)

/-- Lookup of a checklist name in the (possibly absent) merged bundle. -/
def bundleLookup {κ : Type} (b : Option (Bundle κ)) (name : String) :
    Option (TaggedChecklist κ) :=
  match b with
  | none => none
  | some bundle => objGet bundle.checklists name

/-- Claim side: the documents the merge processes, in the fixed order daily,
weekly, monthly and, within each class, Today, History, Admin/Today,
Admin/History — the located candidates in that order whose download yields a
checklists mapping, tagged admin iff the candidate came from an admin role. -/
def processedDocs {φ κ : Type} (dl : φ → Option (List (String × κ)))
    (loc : LocatedSlots φ) : List (List (String × κ) × Bool) :=
  (allCandidateFiles loc).filterMap
    (fun f => (dl f.file).map (fun doc => (doc, f.isAdmin)))

/-- Claim side: all checklist entries of the processed documents, flattened in
processing order, each carrying its document admin flag. -/
def mergedEntries {φ κ : Type} (dl : φ → Option (List (String × κ)))
    (loc : LocatedSlots φ) : List (String × κ × Bool) :=
  (processedDocs dl loc).flatMap
    (fun p => p.1.map (fun kv => (kv.1, kv.2, p.2)))

/-! ## View-model projection (checklist.js: `getChecklistType`, `parse`)

JS numbers are binary64 doubles.  The integer counts involved are exact, but
in `Math.round((completed / total) * 100)` the division and the
multiplication are floating-point operations: each result is rounded to 53
significant bits (round to nearest, ties to even).  This matters: at
`completed = 29, total = 200` the quotient `0.145` is not representable, the
nearest double is slightly below it, the product evaluates to
`14.499999999999998`, and `Math.round` yields `14` where exact rational
arithmetic would reach `14.5` and round up to `15`.  The model below
therefore computes both roundings exactly over `ℕ`/`ℤ` (mantissa–exponent
pairs), so concrete runs reduce in the kernel.  It is exact for operands in
the binary64 normal range — in particular for every count below `2^53`, far
beyond any array a JS engine can hold; subnormal/overflow boundaries are not
modelled. -/

/-- Exact rational round-half-up, `⌊q + 1/2⌋`.  This is what ECMAScript's
`Math.round` applies to the exact value of its double argument — and also
the idealised reading of `Math.round((c/t)*100)` that the floating-point
evaluation diverges from at inputs like 29/200. -/
def jsRound (q : ℚ) : Int :=
  ⌊q + 1 / 2⌋

/-- Fuelled floor-log₂ (structurally recursive so the kernel can evaluate
it on literals). -/
def log2Fuel : Nat → Nat → Nat
  | 0, _ => 0
  | fuel + 1, n => if 2 ≤ n then log2Fuel fuel (n / 2) + 1 else 0

/-- `⌊log₂ n⌋` for positive `n < 2^64` (fuel 64 peels one bit per step). -/
def natLog2 (n : Nat) : Nat :=
  log2Fuel 64 n

/-- Round `N / D` (with `D` positive) to the nearest integer, ties to even —
the IEEE 754 default rounding applied to a significand. -/
def rne (N D : Nat) : Nat :=
  let q := N / D
  let r := N % D
  if 2 * r < D then q
  else if D < 2 * r then q + 1
  else if q % 2 = 0 then q else q + 1

/-- Is `A / B ≥ 2^k` (for positive `A`, `B`)? -/
def ratGePow2 (A B : Nat) (k : Int) : Bool :=
  if 0 ≤ k then B * 2 ^ k.toNat ≤ A else B ≤ A * 2 ^ (-k).toNat

/-- `⌊log₂ (A / B)⌋` for positive `A`, `B`: `natLog2 A - natLog2 B` is
correct or one too large, so one exact comparison settles it. -/
def ratLog2 (A B : Nat) : Int :=
  let k : Int := (natLog2 A : Int) - (natLog2 B : Int)
  if ratGePow2 A B k then k else k - 1

/-- The binary64 rounding of the positive rational `A / B`: the
mantissa–exponent pair `(m, e)` with `2^52 ≤ m ≤ 2^53` whose value `m·2^e`
is the nearest double (ties to even).  The scaled quotient `A/(B·2^e)` lies
in `[2^52, 2^53)` and is rounded by `rne` on the exact integer fraction. -/
def float64OfRat (A B : Nat) : Nat × Int :=
  let e : Int := ratLog2 A B - 52
  let N := if 0 ≤ e then A else A * 2 ^ (-e).toNat
  let D := if 0 ≤ e then B * 2 ^ e.toNat else B
  (rne N D, e)

/-- `⌊m·2^e + 1/2⌋` computed exactly — ECMAScript `Math.round` of the
non-negative double value `m·2^e` (the spec rounds the exact value of the
argument, not a recomputed float sum). -/
def mathRoundValue (m : Nat) (e : Int) : Nat :=
  if 0 ≤ e then m * 2 ^ e.toNat
  else
    let D := 2 ^ (-e).toNat
    (2 * m + D) / (2 * D)

/-- `Math.round((c / t) * 100)` as the program computes it for counts
`c ≤ t`, `t > 0`: round `c/t` to binary64, multiply the exact mantissa by
100 and round the product to binary64 again, then apply the exact
`Math.round`.  Validated against double arithmetic; diverges from
`jsRound (100*c/t)` exactly where the double product lands on the other
side of the half-integer (29/200 → 14, not 15). -/
def jsPercent (c t : Nat) : Int :=
  if c = 0 then 0
  else
    let p1 := float64OfRat c t
    let prodM := p1.1 * 100
    let p2 :=
      if 0 ≤ p1.2 then float64OfRat (prodM * 2 ^ p1.2.toNat) 1
      else float64OfRat prodM (2 ^ (-p1.2).toNat)
    (mathRoundValue p2.1 p2.2 : Int)

/-- A raw checklist item (`{text, completed, by?, time?, comment?}`). -/
structure RawItem where
  text : String
  completed : Bool
  doneBy : Option String
  time : Option String
  comment : Option String
deriving DecidableEq, Repr

/-- A projected item (`{text, completed, completedBy, completedTime, comment}`). -/
structure ParsedItem where
  text : String
  completed : Bool
  completedBy : Option String
  completedTime : Option String
  comment : Option String
deriving DecidableEq, Repr

/-- The per-checklist stats object `{total, completed, pending, percentage}`. -/
structure ChecklistStats where
  total : Nat
  completed : Nat
  pending : Nat
  percentage : Int
deriving DecidableEq, Repr

/-- The stats computed in `Checklist.parse` for one item list: completed item
count, pending difference, and rounded completion percentage (0 for an empty
list). -/
def checklistStats (items : List RawItem) : ChecklistStats :=
  let completedItems := items.filter (fun i => i.completed)
  ChecklistStats.mk items.length completedItems.length
    (items.length - completedItems.length)
    (if 0 < items.length then jsPercent completedItems.length items.length
    else 0)

/-- Model of the JS regex tests of `getChecklistType`: the pattern
`/^\d+<letter>\s/` matches iff the string starts with one or more ASCII
digits, then the letter, then a whitespace character; `\d` and `\s` are the
ASCII digits and the JS whitespace class. -/
def matchNumLetterSpace (letter : Char) (l : List Char) : Bool :=
  let ds := l.takeWhile Char.isDigit
  let rest := l.dropWhile Char.isDigit
  !ds.isEmpty &&
    match rest with
    | c :: c2 :: _ => c == letter && isJsSpace c2
    | _ => false

/-- Model of `Checklist.getChecklistType`: classify a checklist name by its
leading tag. -/
def getChecklistType (name : String) : String :=
  if matchNumLetterSpace 'D' name.toList then "diario"
  else if matchNumLetterSpace 'S' name.toList then "semanal"
  else if matchNumLetterSpace 'M' name.toList then "mensual"
  else "otro"

/-- Claim side (C8 as stated): the name has a leading numeric prefix followed
by the letter — with nothing said about what follows the letter. -/
def leadingNumLetter (letter : Char) (name : String) : Prop :=
  ∃ ds rest, name.toList = ds ++ letter :: rest ∧ ds ≠ [] ∧ ∀ c ∈ ds, c.isDigit

/-- Claim side (amended): the name has a leading numeric prefix, the letter,
and then a whitespace character, as the source regex requires. -/
def leadingNumLetterSpace (letter : Char) (name : String) : Prop :=
  ∃ ds c rest, name.toList = ds ++ letter :: c :: rest ∧ ds ≠ [] ∧
    (∀ x ∈ ds, x.isDigit) ∧ isJsSpace c

/-- Insert into a sorted list, keeping the existing element first on ties
(stable, like the host `Array.prototype.sort`). -/
def insertSorted {α : Type} (le : α → α → Bool) (a : α) : List α → List α
  | [] => [a]
  | b :: t => if le a b then a :: b :: t else b :: insertSorted le a t

/-- Stable insertion sort, the model of the host `Array.prototype.sort`
(chosen structurally recursive so that concrete runs reduce in the kernel). -/
def insertionSort {α : Type} (le : α → α → Bool) : List α → List α
  | [] => []
  | a :: t => insertSorted le a (insertionSort le t)

/-- A raw checklist (`{items: [...]}`; a missing items field reads as `[]`). -/
structure RawChecklist where
  items : Option (List RawItem)
deriving DecidableEq, Repr

/-- A raw downloaded document (`{date|week_start|month_start, checklists}`). -/
structure RawDoc where
  date : Option String
  weekStart : Option String
  monthStart : Option String
  checklists : Option (List (String × RawChecklist))
deriving DecidableEq, Repr

/-- Model of `Checklist.getFileType`. -/
def getFileType (d : RawDoc) : String :=
  if d.date.isSome then "daily"
  else if d.weekStart.isSome then "weekly"
  else if d.monthStart.isSome then "monthly"
  else "unknown"

/-- A projected checklist with its classification and stats. -/
structure ParsedChecklist where
  name : String
  type : String
  items : List ParsedItem
  stats : ChecklistStats
deriving DecidableEq, Repr

/-- The projected document with overall stats. -/
structure ParsedDoc where
  fileType : String
  date : Option String
  checklists : List ParsedChecklist
  stats : ChecklistStats
deriving DecidableEq, Repr

/-- Projection of one raw item. -/
def parseItem (it : RawItem) : ParsedItem :=
  ParsedItem.mk it.text it.completed it.doneBy it.time it.comment

/-- Projection of one checklists entry. -/
def parseChecklist (name : String) (c : RawChecklist) : ParsedChecklist :=
  let items := c.items.getD []
  ParsedChecklist.mk name (getChecklistType name) (items.map parseItem)
    (checklistStats items)

/-- Model of `Checklist.parse`: project every entry, accumulate the overall
totals over the entries, sort the checklists by name (the host
`localeCompare` order is modelled by the code-point order; the stats are
oblivious to the comparator), and recompute the overall percentage from the
accumulated totals.  The date fields are modelled as `Option` — absent or
present — so the `Option.or` chain mirrors `data.date || data.week_start ||
data.month_start` for absent-vs-present fields; a present-but-empty date
string (falsy in JS, truthy here) is not distinguished, and no theorem below
depends on the date field. -/
def parse (data : Option RawDoc) : Option ParsedDoc :=
  match data with
  | none => none
  | some d =>
    match d.checklists with
    | none => none
    | some entries =>
      let parsed := entries.map (fun kv => parseChecklist kv.1 kv.2)
      let totalAll := (parsed.map (fun c => c.stats.total)).sum
      let compAll := (parsed.map (fun c => c.stats.completed)).sum
      let pendAll := (parsed.map (fun c => c.stats.pending)).sum
      let sorted := insertionSort (fun a b => a.name ≤ b.name) parsed
      some (ParsedDoc.mk (getFileType d)
        ((d.date).or ((d.weekStart).or d.monthStart))
        sorted
        (ChecklistStats.mk totalAll compAll pendAll
          (if 0 < totalAll then jsPercent compAll totalAll else 0)))

/-- Model of `Inventario.getStats` (inventario.js): every row of the pending
ledger is pending. -/
def inventarioGetStats (filteredItems : List (List (String × String))) :
    Nat × Nat × Nat :=
  (filteredItems.length, 0, filteredItems.length)

/-! ## Theorems -/

/-- `daysFromCivil` is linear in the day-of-month argument. -/
theorem daysFromCivil_day_linear (y m d e : Int) :
    daysFromCivil y m e = daysFromCivil y m d + (e - d) := by
  simp only [daysFromCivil]
  split_ifs <;> omega

/-- The last day of the month preceding `(y, m)` is the day before `(y, m, 1)`. -/
theorem daysFromCivil_month_transition (y m : Int) (hm1 : 1 ≤ m) (hm2 : m ≤ 12) :
    (if m = 1 then daysFromCivil (y - 1) 12 (daysInMonth (y - 1) 12)
     else daysFromCivil y (m - 1) (daysInMonth y (m - 1))) + 1 = daysFromCivil y m 1 := by
  simp only [daysFromCivil, daysInMonth, isLeapYear]
  interval_cases m <;> simp <;> omega

/-- The `setDate` borrow does not change the denoted day number. -/
theorem daysFromCivil_borrowMonth (y m e : Int) (hm1 : 1 ≤ m) (hm2 : m ≤ 12) :
    daysFromCivil (borrowMonth y m e).1 (borrowMonth y m e).2.1 (borrowMonth y m e).2.2 =
      daysFromCivil y m e := by
  have htrans := daysFromCivil_month_transition y m hm1 hm2
  unfold borrowMonth
  split_ifs with he hm
  · rfl
  · subst hm
    rw [if_pos rfl] at htrans
    have h1 := daysFromCivil_day_linear (y - 1) 12 (daysInMonth (y - 1) 12)
      (daysInMonth (y - 1) 12 + e)
    have h2 := daysFromCivil_day_linear y 1 1 e
    dsimp only
    omega
  · rw [if_neg hm] at htrans
    have h1 := daysFromCivil_day_linear y (m - 1) (daysInMonth y (m - 1))
      (daysInMonth y (m - 1) + e)
    have h2 := daysFromCivil_day_linear y m 1 e
    dsimp only
    omega

/-- The triple produced by `getWeekStart` denotes the day number of the input
shifted by the Sunday-adjusted offset. -/
theorem daysFromCivil_getWeekStart (y m d : Int) (hm1 : 1 ≤ m) (hm2 : m ≤ 12) :
    daysFromCivil (getWeekStart y m d).1 (getWeekStart y m d).2.1 (getWeekStart y m d).2.2 =
      daysFromCivil y m d +
        (if dayOfWeekCivil y m d = 0 then -6 else 1 - dayOfWeekCivil y m d) := by
  unfold getWeekStart
  rw [daysFromCivil_borrowMonth y m _ hm1 hm2,
    daysFromCivil_day_linear y m d]
  ring

/-- C2.  For every valid calendar date (the embedding covers years ≥ 100; smaller
years are remapped by the host `Date` constructor), the week start computed by
`getWeekStart` is a Monday, is at most the input date, is strictly later than the
input date minus seven days, and a Sunday input is moved exactly six days back;
in particular the date 2024-03-10 (a Sunday) yields 2024-03-04. -/
theorem getWeekStart_monday_le (y m d : Int) (hy : 100 ≤ y) (hm1 : 1 ≤ m) (hm2 : m ≤ 12)
    (hd1 : 1 ≤ d) (hd2 : d ≤ daysInMonth y m) :
    dayOfWeekCivil (getWeekStart y m d).1 (getWeekStart y m d).2.1 (getWeekStart y m d).2.2 = 1 ∧
    daysFromCivil (getWeekStart y m d).1 (getWeekStart y m d).2.1 (getWeekStart y m d).2.2 ≤
      daysFromCivil y m d ∧
    daysFromCivil y m d - 7 <
      daysFromCivil (getWeekStart y m d).1 (getWeekStart y m d).2.1 (getWeekStart y m d).2.2 ∧
    (dayOfWeekCivil y m d = 0 →
      daysFromCivil (getWeekStart y m d).1 (getWeekStart y m d).2.1 (getWeekStart y m d).2.2 =
        daysFromCivil y m d - 6) ∧
    getWeekStart 2024 3 10 = (2024, 3, 4) := by
  have hkey := daysFromCivil_getWeekStart y m d hm1 hm2
  have hdow : dayOfWeekCivil y m d = (daysFromCivil y m d + 4) % 7 := rfl
  have hdow' :
      dayOfWeekCivil (getWeekStart y m d).1 (getWeekStart y m d).2.1
        (getWeekStart y m d).2.2 =
      (daysFromCivil (getWeekStart y m d).1 (getWeekStart y m d).2.1
        (getWeekStart y m d).2.2 + 4) % 7 := rfl
  refine ⟨?_, ?_, ?_, ?_, by decide⟩ <;> omega

/-- Witness for C2 at the concrete date 2024-03-10. -/
theorem getWeekStart_monday_le_witness :
    dayOfWeekCivil (getWeekStart 2024 3 10).1 (getWeekStart 2024 3 10).2.1
        (getWeekStart 2024 3 10).2.2 = 1 ∧
    getWeekStart 2024 3 10 = (2024, 3, 4) :=
  ⟨(getWeekStart_monday_le 2024 3 10 (by decide) (by decide) (by decide) (by decide)
      (by decide)).1,
   (getWeekStart_monday_le 2024 3 10 (by decide) (by decide) (by decide) (by decide)
      (by decide)).2.2.2.2⟩



set_option maxRecDepth 4000 in
/-- C7 counterexample.  On a 200-item list with 29 completed items the
program's percentage is 14 — the double evaluation of `(29/200)*100` is
`14.499999999999998` — while the claim's rounding formula, read exactly,
gives `round(14.5) = 15`. -/
theorem checklistStats_percentage_cex :
    (checklistStats (List.replicate 29 (RawItem.mk "x" true none none none) ++
        List.replicate 171 (RawItem.mk "x" false none none none))).total = 200 ∧
    (checklistStats (List.replicate 29 (RawItem.mk "x" true none none none) ++
        List.replicate 171 (RawItem.mk "x" false none none none))).completed = 29 ∧
    (checklistStats (List.replicate 29 (RawItem.mk "x" true none none none) ++
        List.replicate 171 (RawItem.mk "x" false none none none))).percentage = 14 ∧
    jsRound ((100 * (29 : ℚ)) / (200 : ℚ)) = 15 := by
  refine ⟨by decide, by decide, by decide, ?_⟩
  norm_num [jsRound]

/-- C7 (amended).  For every item list, the projected stats satisfy: total is
the number of items, completed the number of completed items, pending their
difference, and percentage the value of `Math.round((completed/total)*100)`
computed in binary64 floating point (0 for an empty list) — which at inputs
such as 29 of 200 is one below the exact rational rounding; in particular the
empty list projects to all-zero stats. -/
theorem checklistStats_props (items : List RawItem) :
    (checklistStats items).total = items.length ∧
    (checklistStats items).completed = items.countP (fun i => i.completed) ∧
    (checklistStats items).pending =
      (checklistStats items).total - (checklistStats items).completed ∧
    (checklistStats items).percentage =
      (if (checklistStats items).total = 0 then 0 else
        jsPercent (checklistStats items).completed (checklistStats items).total) ∧
    checklistStats [] = ChecklistStats.mk 0 0 0 0 := by
  refine ⟨rfl, ?_, rfl, ?_, rfl⟩
  · simp [checklistStats, List.countP_eq_length_filter]
  · simp only [checklistStats]
    rcases Nat.eq_zero_or_pos items.length with h | h
    · simp [h]
    · have hne : items.length ≠ 0 := Nat.pos_iff_ne_zero.mp h
      rw [if_pos h, if_neg hne]

/-- C9.  A downloaded ledger whose trimmed content has fewer than two lines
makes removeDiscrepancia return success without reaching the key-column check
and without producing an upload, whatever the header looks like. -/
theorem removeDiscrepancia_short_content (s a : String)
    (h : (ledgerLines s).length < 2) :
    removeDiscrepanciaCsv s a = RemoveResult.noUpload := by
  unfold removeDiscrepanciaCsv
  simp [h]

/-- Witness for C9: the single-line content has no Articulo column, yet the
removal succeeds with no upload. -/
theorem removeDiscrepancia_short_content_witness :
    (ledgerLines "Foo;Bar").length < 2 ∧
    articuloIndex (ledgerHeader "Foo;Bar") = none ∧
    removeDiscrepanciaCsv "Foo;Bar" "100" = RemoveResult.noUpload :=
  ⟨by decide, by decide, removeDiscrepancia_short_content "Foo;Bar" "100" (by decide)⟩

/-- C5, counterexample.  The claim states that every ledger content without an
Articulo column fails with the malformed-ledger error; the single-line content
"Foo,Bar" has no such column, yet removeDiscrepancia returns success (the
short-content early return precedes the column check). -/
theorem removeDiscrepancia_missing_column_cex :
    articuloIndex (ledgerHeader "Foo,Bar") = none ∧
    removeDiscrepanciaCsv "Foo,Bar" "100" = RemoveResult.noUpload ∧
    RemoveResult.noUpload ≠ RemoveResult.malformed := by
  exact ⟨by decide, by decide, by decide⟩

/-- C5, amended.  For every ledger content with at least two lines after
trimming whose header has no column named Articulo, removeDiscrepancia fails
with the malformed-ledger error; operationally (second conjunct) the full
operation reports that error having issued only the ledger search and the
download - no upload request. -/
theorem removeDiscrepancia_missing_column (s a : String)
    (hlen : 2 ≤ (ledgerLines s).length)
    (hno : articuloIndex (ledgerHeader s) = none) :
    removeDiscrepanciaCsv s a = RemoveResult.malformed ∧
    ∀ (env : NetEnv) (cache : Cache) (storeName invId fid fname : String),
      env.token.isSome = true →
      cacheGet cache ("inventario_" ++ storeName) = some invId →
      (cacheGet cache ("store_" ++ storeName)).isSome = true →
      env.searchResult (invId ++ ":discrepancias.csv") = some [DriveFile.mk fid fname] →
      env.downloadText fid = some s →
      removeDiscrepanciaM env cache storeName a =
        (Except.error DriveError.malformedLedger,
         [NetRequest.searchReq (invId ++ ":discrepancias.csv"),
          NetRequest.downloadReq fid], cache) := by
  have hcsv : removeDiscrepanciaCsv s a = RemoveResult.malformed := by
    have hnl : ¬ (ledgerLines s).length < 2 := by omega
    unfold ledgerHeader at hno
    simp only [removeDiscrepanciaCsv]
    rw [if_neg hnl, hno]
  refine ⟨hcsv, ?_⟩
  intro env cache storeName invId fid fname htok hinv hsid hsearch hdl
  obtain ⟨t, ht⟩ := Option.isSome_iff_exists.mp htok
  obtain ⟨sid, hsid2⟩ := Option.isSome_iff_exists.mp hsid
  have h1 : findInventarioFolder env cache storeName =
      (Except.ok (some invId), [], cache) := by
    unfold findInventarioFolder
    rw [hsid2, hinv]
  have h2 : findOrCreateInventarioFolder env cache storeName =
      (Except.ok invId, [], cache) := by
    simp only [findOrCreateInventarioFolder, h1]
  have h3 : searchFiles env (invId ++ ":discrepancias.csv") =
      (Except.ok [DriveFile.mk fid fname],
       [NetRequest.searchReq (invId ++ ":discrepancias.csv")]) := by
    unfold searchFiles apiRequest
    rw [ht, hsearch]
  simp only [removeDiscrepanciaM, h2, h3, hdl, hcsv, List.nil_append]
  rfl

/-- Witness for C5 (amended claim) at a concrete malformed two-line ledger. -/
theorem removeDiscrepancia_missing_column_witness :
    2 ≤ (ledgerLines "Foo,Bar\nx,y").length ∧
    articuloIndex (ledgerHeader "Foo,Bar\nx,y") = none ∧
    removeDiscrepanciaCsv "Foo,Bar\nx,y" "100" = RemoveResult.malformed :=
  ⟨by decide, by decide,
   (removeDiscrepancia_missing_column "Foo,Bar\nx,y" "100" (by decide) (by decide)).1⟩

/-- C6.  With a null token from the auth collaborator, the client operations
fail with the unauthenticated error having issued no network request: the
api-request/search primitive and the download primitive directly, the ledger
removal as a whole (given a resolvable store, its first network-touching step
is a search), and the folder-resolution-with-creation whenever the folder is
not already cached (a cached folder id short-circuits every request). -/
theorem unauthenticated_fails_before_request
    (env : NetEnv) (cache : Cache) (endpoint q fid storeName a sid : String)
    (htok : env.token = none)
    (hstore : cacheGet cache ("store_" ++ storeName) = some sid) :
    apiRequest env endpoint q = (Except.error DriveError.notAuthenticated, []) ∧
    downloadFile env fid = (Except.error DriveError.notAuthenticated, []) ∧
    removeDiscrepanciaM env cache storeName a =
      (Except.error DriveError.notAuthenticated, [], cache) ∧
    (cacheGet cache ("inventario_" ++ storeName) = none →
      findOrCreateInventarioFolder env cache storeName =
        (Except.error DriveError.notAuthenticated, [], cache)) := by
  have hapi : ∀ q2, apiRequest env endpoint q2 =
      (Except.error DriveError.notAuthenticated, []) := by
    intro q2
    unfold apiRequest
    rw [htok]
  have hdl : downloadFile env fid = (Except.error DriveError.notAuthenticated, []) := by
    unfold downloadFile
    rw [htok]
  have hsearch : ∀ q2, searchFiles env q2 =
      (Except.error DriveError.notAuthenticated, []) := by
    intro q2
    unfold searchFiles apiRequest
    rw [htok]
  have hfindNone : cacheGet cache ("inventario_" ++ storeName) = none →
      findOrCreateInventarioFolder env cache storeName =
        (Except.error DriveError.notAuthenticated, [], cache) := by
    intro hinv
    have h1 : findInventarioFolder env cache storeName =
        (Except.error DriveError.notAuthenticated, [], cache) := by
      unfold findInventarioFolder
      rw [hstore, hinv]
      simp only [hsearch]
    simp only [findOrCreateInventarioFolder, h1]
  refine ⟨hapi q, hdl, ?_, hfindNone⟩
  cases hinv : cacheGet cache ("inventario_" ++ storeName) with
  | none =>
    simp only [removeDiscrepanciaM, hfindNone hinv]
  | some cachedId =>
    have h1 : findInventarioFolder env cache storeName =
        (Except.ok (some cachedId), [], cache) := by
      unfold findInventarioFolder
      rw [hstore, hinv]
    have h2 : findOrCreateInventarioFolder env cache storeName =
        (Except.ok cachedId, [], cache) := by
      simp only [findOrCreateInventarioFolder, h1]
    simp only [removeDiscrepanciaM, h2, hsearch, List.append_nil]

/-- Witness for C6: a concrete environment with a null token and a cached
store folder. -/
theorem unauthenticated_fails_before_request_witness :
    (NetEnv.mk none (fun _ => none) (fun _ => none) (fun _ => false)
        (fun _ => none)).token = none ∧
    cacheGet [("store_53", "sid1")] ("store_" ++ "53") = some "sid1" ∧
    removeDiscrepanciaM
        (NetEnv.mk none (fun _ => none) (fun _ => none) (fun _ => false)
          (fun _ => none))
        [("store_53", "sid1")] "53" "100" =
      (Except.error DriveError.notAuthenticated, [], [("store_53", "sid1")]) :=
  ⟨rfl, by decide,
   (unauthenticated_fails_before_request
      (NetEnv.mk none (fun _ => none) (fun _ => none) (fun _ => false)
        (fun _ => none))
      [("store_53", "sid1")] "e" "q" "f" "53" "100" "sid1" rfl (by decide)).2.2.1⟩


/-- Splitting at a failing element: `takeWhile` keeps exactly an all-true
prefix that is followed by a failing element. -/
theorem takeWhile_dropWhile_append {α : Type} (p : α → Bool) (l1 : List α) (x : α)
    (t : List α) (h1 : ∀ c ∈ l1, p c = true) (hx : p x = false) :
    (l1 ++ x :: t).takeWhile p = l1 ∧ (l1 ++ x :: t).dropWhile p = x :: t := by
  induction l1 with
  | nil => simp [List.takeWhile_cons, List.dropWhile_cons, hx]
  | cons a l ih =>
    have ha : p a = true := h1 a (List.mem_cons_self a l)
    have iht := ih (fun c hc => h1 c (List.mem_cons_of_mem a hc))
    simp [List.takeWhile_cons, List.dropWhile_cons, ha, iht.1, iht.2]

/-- The regex test matches exactly the names of the shape digits, letter,
whitespace (for a non-digit letter). -/
theorem matchNumLetterSpace_iff (letter : Char) (hl : letter.isDigit = false)
    (l : List Char) :
    matchNumLetterSpace letter l = true ↔
      ∃ ds c rest, l = ds ++ letter :: c :: rest ∧ ds ≠ [] ∧
        (∀ x ∈ ds, x.isDigit) ∧ isJsSpace c := by
  constructor
  · intro h
    unfold matchNumLetterSpace at h
    rw [Bool.and_eq_true] at h
    obtain ⟨hne, hm⟩ := h
    rcases hrest : l.dropWhile Char.isDigit with _ | ⟨c, rest1⟩
    · rw [hrest] at hm
      simp at hm
    rcases rest1 with _ | ⟨c2, r⟩
    · rw [hrest] at hm
      simp at hm
    rw [hrest] at hm
    rw [Bool.and_eq_true, beq_iff_eq] at hm
    refine ⟨l.takeWhile Char.isDigit, c2, r, ?_, ?_, ?_, hm.2⟩
    · conv_lhs => rw [← List.takeWhile_append_dropWhile Char.isDigit l]
      rw [hrest, hm.1]
    · intro hempty
      rw [hempty] at hne
      simp at hne
    · intro x hx
      exact List.mem_takeWhile_imp hx
  · rintro ⟨ds, c, rest, rfl, hne, hdig, hsp⟩
    have hsplit := takeWhile_dropWhile_append Char.isDigit ds letter (c :: rest)
      (fun x hx => hdig x hx) hl
    unfold matchNumLetterSpace
    rw [hsplit.1, hsplit.2, Bool.and_eq_true]
    refine ⟨by simpa using hne, ?_⟩
    simp [hsp]

/-- Two different letters cannot both match. -/
theorem matchNumLetterSpace_ne (a b : Char) (hab : a ≠ b) (l : List Char)
    (ha : matchNumLetterSpace a l = true) : matchNumLetterSpace b l = false := by
  unfold matchNumLetterSpace at ha ⊢
  rcases h : l.dropWhile Char.isDigit with _ | ⟨c, rest1⟩ <;>
    simp only [h] at ha ⊢
  · simpa using ha
  rcases rest1 with _ | ⟨c2, r⟩
  · simpa using ha
  rw [Bool.and_eq_true] at ha
  obtain ⟨hne, ha2⟩ := ha
  rw [Bool.and_eq_true, beq_iff_eq] at ha2
  have hcb : (c == b) = false := by
    rw [beq_eq_false_iff_ne, ha2.1]
    exact hab
  simp [hcb]

/-- C8, counterexample.  The name "1D" has a leading numeric prefix followed
by the letter D, yet the classifier yields "otro", not "diario": the source
regex additionally requires a whitespace character after the letter. -/
theorem getChecklistType_cex :
    leadingNumLetter 'D' "1D" ∧ getChecklistType "1D" = "otro" ∧
    ("otro" : String) ≠ "diario" := by
  refine ⟨⟨['1'], [], by decide, by decide, by decide⟩, by decide, by decide⟩

/-- C8, amended.  Classification yields daily, weekly or monthly exactly for a
leading numeric prefix, the corresponding letter, and a following whitespace
character, and "otro" exactly for the names matching none of the three
patterns. -/
theorem getChecklistType_spec (name : String) :
    (getChecklistType name = "diario" ↔ leadingNumLetterSpace 'D' name) ∧
    (getChecklistType name = "semanal" ↔ leadingNumLetterSpace 'S' name) ∧
    (getChecklistType name = "mensual" ↔ leadingNumLetterSpace 'M' name) ∧
    (getChecklistType name = "otro" ↔
      ¬ leadingNumLetterSpace 'D' name ∧ ¬ leadingNumLetterSpace 'S' name ∧
        ¬ leadingNumLetterSpace 'M' name) := by
  have hD := matchNumLetterSpace_iff 'D' (by decide) name.toList
  have hS := matchNumLetterSpace_iff 'S' (by decide) name.toList
  have hM := matchNumLetterSpace_iff 'M' (by decide) name.toList
  have hDS := matchNumLetterSpace_ne 'D' 'S' (by decide) name.toList
  have hDM := matchNumLetterSpace_ne 'D' 'M' (by decide) name.toList
  have hSM := matchNumLetterSpace_ne 'S' 'M' (by decide) name.toList
  unfold leadingNumLetterSpace
  rw [← hD, ← hS, ← hM]
  unfold getChecklistType
  by_cases hd : matchNumLetterSpace 'D' name.toList = true
  · have hs : matchNumLetterSpace 'S' name.toList = false := hDS hd
    have hm2 : matchNumLetterSpace 'M' name.toList = false := hDM hd
    rw [if_pos hd]
    exact ⟨iff_of_true rfl hd,
      iff_of_false (by decide) (fun h => absurd (hs.symm.trans h) (by decide)),
      iff_of_false (by decide) (fun h => absurd (hm2.symm.trans h) (by decide)),
      iff_of_false (by decide) (fun h => h.1 hd)⟩
  · rw [if_neg hd]
    by_cases hs : matchNumLetterSpace 'S' name.toList = true
    · have hm2 : matchNumLetterSpace 'M' name.toList = false := hSM hs
      rw [if_pos hs]
      exact ⟨iff_of_false (by decide) hd,
        iff_of_true rfl hs,
        iff_of_false (by decide) (fun h => absurd (hm2.symm.trans h) (by decide)),
        iff_of_false (by decide) (fun h => h.2.1 hs)⟩
    · rw [if_neg hs]
      by_cases hm2 : matchNumLetterSpace 'M' name.toList = true
      · rw [if_pos hm2]
        exact ⟨iff_of_false (by decide) hd,
          iff_of_false (by decide) hs,
          iff_of_true rfl hm2,
          iff_of_false (by decide) (fun h => h.2.2 hm2)⟩
      · rw [if_neg hm2]
        exact ⟨iff_of_false (by decide) hd,
          iff_of_false (by decide) hs,
          iff_of_false (by decide) hm2,
          iff_of_true rfl ⟨hd, hs, hm2⟩⟩


/-- Option algebra helper: `or` with `none` on the left. -/
theorem option_none_or {α : Type} (x : Option α) : Option.or none x = x := by
  cases x <;> rfl

/-- Option algebra helper: `or` with `some` on the left. -/
theorem option_some_or {α : Type} (a : α) (x : Option α) :
    Option.or (some a) x = some a := rfl

/-- Option algebra helper: `map` distributes over `or`. -/
theorem option_map_or {α β : Type} (f : α → β) (x y : Option α) :
    (x.or y).map f = (x.map f).or (y.map f) := by
  cases x <;> rfl

/-- Option algebra helper: `or` is associative. -/
theorem option_or_assoc {α : Type} (a b c : Option α) :
    (a.or b).or c = a.or (b.or c) := by
  cases a <;> rfl

/-- The last element of a cons in `or` form. -/
theorem getLast?_cons_eq_or {α : Type} (a : α) (l : List α) :
    (a :: l).getLast? = l.getLast?.or (some a) := by
  have h := @List.getLast?_append _ [a] l
  simpa using h

/-- `getLast?` commutes with `map`. -/
theorem getLast?_map {α β : Type} (f : α → β) (l : List α) :
    (l.map f).getLast? = l.getLast?.map f := by
  induction l with
  | nil => rfl
  | cons a t ih =>
    rw [List.map_cons, getLast?_cons_eq_or, getLast?_cons_eq_or, ih, option_map_or]
    rfl

/-- Reading after a JS object assignment: the assigned key reads the new
value, every other key is untouched. -/
theorem objGet_objSet {κ : Type} (m : List (String × κ)) (k : String) (v : κ)
    (key : String) :
    objGet (objSet m k v) key = if key = k then some v else objGet m key := by
  induction m with
  | nil =>
    simp only [objSet, objGet]
    by_cases h : key = k
    · rw [if_pos h.symm, if_pos h]
    · rw [if_neg (fun hh : k = key => h hh.symm), if_neg h]
  | cons p t ih =>
    simp only [objSet]
    by_cases hpk : p.1 = k
    · rw [if_pos hpk]
      simp only [objGet]
      by_cases hkey : key = k
      · rw [if_pos hkey.symm, if_pos hkey]
      · rw [if_neg (fun hh : k = key => hkey hh.symm), if_neg hkey,
          if_neg (fun hh : p.1 = key => hkey ((hpk.symm.trans hh).symm))]
    · rw [if_neg hpk]
      simp only [objGet, ih]
      by_cases hp : p.1 = key
      · rw [if_pos hp, if_pos hp,
          if_neg (fun hh : key = k => hpk (hp.trans hh))]
      · rw [if_neg hp, if_neg hp]

/-- Merging one document into an accumulator: a key reads the last entry of
the document carrying it (tagged with the document flag), else whatever the
accumulator held. -/
theorem objGet_foldl_objSet {κ : Type} (adm : Bool) (doc : List (String × κ))
    (acc : List (String × TaggedChecklist κ)) (key : String) :
    objGet (doc.foldl (fun a kv => objSet a kv.1 (TaggedChecklist.mk kv.2 adm)) acc)
        key =
      ((doc.filter (fun kv => kv.1 == key)).getLast?.map
        (fun kv => TaggedChecklist.mk kv.2 adm)).or (objGet acc key) := by
  induction doc generalizing acc with
  | nil => simp [option_none_or]
  | cons kv rest ih =>
    rw [List.foldl_cons, ih, List.filter_cons]
    by_cases h : kv.1 = key
    · rw [show (kv.1 == key) = true by simp [h], if_pos rfl,
        getLast?_cons_eq_or, option_map_or, option_or_assoc]
      congr 1
      rw [objGet_objSet, if_pos h.symm]
      rfl
    · rw [show (kv.1 == key) = false by simp [h], if_neg (by decide)]
      congr 1
      rw [objGet_objSet, if_neg (fun hh : key = kv.1 => h hh.symm)]

/-- Merging a list of download outcomes: a key reads the last flattened entry
carrying it, else whatever the accumulator held. -/
theorem objGet_foldl_results {κ : Type}
    (results : List (Option (List (String × κ) × Bool)))
    (acc : List (String × TaggedChecklist κ)) (key : String) :
    objGet (results.foldl
        (fun a r =>
          match r with
          | none => a
          | some (doc, adm) =>
            doc.foldl (fun a2 kv => objSet a2 kv.1 (TaggedChecklist.mk kv.2 adm)) a)
        acc) key =
      (((results.flatMap
          (fun r =>
            match r with
            | none => ([] : List (String × TaggedChecklist κ))
            | some (doc, adm) =>
              doc.map (fun kv => (kv.1, TaggedChecklist.mk kv.2 adm)))).filter
        (fun e => e.1 == key)).getLast?.map (fun e => e.2)).or (objGet acc key) := by
  induction results generalizing acc with
  | nil => simp [option_none_or]
  | cons r rest ih =>
    rw [List.foldl_cons, ih, List.flatMap_cons, List.filter_append,
      List.getLast?_append, option_map_or, option_or_assoc]
    rcases r with _ | ⟨doc, adm⟩
    · simp [option_none_or]
    · congr 1
      rw [objGet_foldl_objSet]
      congr 1
      rw [List.filter_map, getLast?_map, Option.map_map]
      rfl

/-- The flattened merge entries of the processing list, in the two shapes used
by the model and by the claim. -/
theorem flatten_entries_eq {φ κ : Type} (dl : φ → Option (List (String × κ)))
    (files : List (FoundFile φ)) :
    ((files.map (fun f => (dl f.file).map (fun doc => (doc, f.isAdmin)))).flatMap
        (fun r =>
          match r with
          | none => ([] : List (String × TaggedChecklist κ))
          | some (doc, adm) =>
            doc.map (fun kv => (kv.1, TaggedChecklist.mk kv.2 adm)))) =
      ((files.filterMap (fun f => (dl f.file).map (fun doc => (doc, f.isAdmin)))).flatMap
          (fun p => p.1.map (fun kv => (kv.1, kv.2, p.2)))).map
        (fun e => (e.1, TaggedChecklist.mk e.2.1 e.2.2)) := by
  induction files with
  | nil => rfl
  | cons f rest ih =>
    rw [List.map_cons, List.flatMap_cons, ih, List.filterMap_cons]
    rcases hdl : dl f.file with _ | doc
    · simp only [Option.map_none', List.nil_append]
    · simp only [Option.map_some', List.flatMap_cons, List.map_append,
        List.map_map]
      rfl


/-- Option algebra helper: `or` with `none` on the right. -/
theorem option_or_none {α : Type} (x : Option α) : x.or none = x := by
  cases x <;> rfl

/-- C1.  For every store and date (that is: for all role-search outcomes of the
three derived filenames and every download oracle), looking a checklist name up
in the merged bundle yields exactly the entry of the document processed last
among those carrying that name, in the fixed processing order daily, weekly,
monthly and, within each class, Today, History, Admin/Today, Admin/History:
its content is that document's entry (never a union), and its provenance tag
is the admin flag of that document.  An absent name (or an empty bundle)
yields no entry. -/
theorem getChecklistForDate_last_wins {φ κ : Type}
    (dl : φ → Option (List (String × κ))) (dateStr : String)
    (loc : LocatedSlots φ) (name : String) :
    bundleLookup (getChecklistForDate dl dateStr loc) name =
      ((mergedEntries dl loc).filter (fun e => e.1 == name)).getLast?.map
        (fun e => TaggedChecklist.mk e.2.1 e.2.2) := by
  have hmain : objGet
      (combineResults ((allCandidateFiles loc).map
        (fun f => (dl f.file).map (fun doc => (doc, f.isAdmin))))) name =
      ((mergedEntries dl loc).filter (fun e => e.1 == name)).getLast?.map
        (fun e => TaggedChecklist.mk e.2.1 e.2.2) := by
    unfold combineResults mergedEntries processedDocs
    rw [objGet_foldl_results, flatten_entries_eq,
      show objGet ([] : List (String × TaggedChecklist κ)) name = none from rfl,
      option_or_none, List.filter_map, getLast?_map, Option.map_map]
    rfl
  simp only [getChecklistForDate, bundleLookup]
  by_cases h1 : (allCandidateFiles loc).isEmpty = true
  · rw [if_pos h1]
    have hempty : allCandidateFiles loc = [] := List.isEmpty_iff.mp h1
    unfold mergedEntries processedDocs
    rw [hempty]
    rfl
  · rw [if_neg h1]
    by_cases h2 : (combineResults ((allCandidateFiles loc).map
        (fun f => (dl f.file).map (fun doc => (doc, f.isAdmin))))).isEmpty = true
    · rw [if_pos h2]
      have hcomb := List.isEmpty_iff.mp h2
      rw [← hmain, hcomb]
      rfl
    · rw [if_neg h2]
      exact hmain


/-- Inserting permutes to consing. -/
theorem insertSorted_perm {α : Type} (le : α → α → Bool) (a : α) (l : List α) :
    List.Perm (insertSorted le a l) (a :: l) := by
  induction l with
  | nil => exact List.Perm.refl _
  | cons b t ih =>
    simp only [insertSorted]
    by_cases h : le a b = true
    · rw [if_pos h]
    · rw [if_neg h]
      exact (ih.cons b).trans (List.Perm.swap a b t)

/-- The insertion sort is a permutation. -/
theorem insertionSort_perm {α : Type} (le : α → α → Bool) (l : List α) :
    List.Perm (insertionSort le l) l := by
  induction l with
  | nil => exact List.Perm.refl _
  | cons a t ih =>
    exact (insertSorted_perm le a (insertionSort le t)).trans (ih.cons a)

/-- Sum of pointwise differences over checklist stats lists. -/
theorem stats_sum_sub (l : List ParsedChecklist)
    (h : ∀ c ∈ l, c.stats.completed ≤ c.stats.total) :
    (l.map (fun c => c.stats.completed)).sum ≤ (l.map (fun c => c.stats.total)).sum ∧
    (l.map (fun c => c.stats.total - c.stats.completed)).sum =
      (l.map (fun c => c.stats.total)).sum -
        (l.map (fun c => c.stats.completed)).sum := by
  induction l with
  | nil => simp
  | cons a t ih =>
    have ha := h a (List.mem_cons_self a t)
    have iht := ih (fun c hc => h c (List.mem_cons_of_mem a hc))
    simp only [List.map_cons, List.sum_cons]
    omega

set_option maxRecDepth 4000 in
/-- C10 counterexample.  A document whose single checklist has 29 of 200
items completed parses to an overall percentage of 14 — the binary64
evaluation of `(29/200)*100` — while the claim's overall rounding formula,
read exactly, gives `round(14.5) = 15`. -/
theorem parse_percentage_cex :
    ((parse (some (RawDoc.mk (some "2024-03-14") none none
        (some [("1D Apertura", RawChecklist.mk
          (some (List.replicate 29 (RawItem.mk "x" true none none none) ++
            List.replicate 171 (RawItem.mk "x" false none none none))))])))).map
      (fun r => (r.stats.total, r.stats.completed, r.stats.percentage))) =
      some (200, 29, 14) ∧
    jsRound ((100 * (29 : ℚ)) / (200 : ℚ)) ≠ 14 := by
  refine ⟨by decide, ?_⟩
  norm_num [jsRound]

/-- C10 (amended).  Every parsed document satisfies: in each per-checklist
stats object completed is at most total and pending equals total minus
completed; the overall stats satisfy the same difference identity; the
overall total, completed and pending are the sums of the per-checklist
values; and the overall percentage is recomputed from the overall totals —
not averaged — as `Math.round((completed/total)*100)` in binary64
floating point (0 when total is 0), which at overall counts such as 29 of
200 is one below the exact rational rounding. -/
theorem parse_props (data : Option RawDoc) (res : ParsedDoc)
    (h : parse data = some res) :
    (∀ c ∈ res.checklists,
      c.stats.completed ≤ c.stats.total ∧
      c.stats.pending = c.stats.total - c.stats.completed) ∧
    res.stats.pending = res.stats.total - res.stats.completed ∧
    res.stats.total = (res.checklists.map (fun c => c.stats.total)).sum ∧
    res.stats.completed = (res.checklists.map (fun c => c.stats.completed)).sum ∧
    res.stats.pending = (res.checklists.map (fun c => c.stats.pending)).sum ∧
    res.stats.percentage =
      (if res.stats.total = 0 then 0 else
        jsPercent res.stats.completed res.stats.total) := by
  rcases data with _ | d
  · exact absurd h (by simp [parse])
  rcases hc : d.checklists with _ | entries
  · rw [show parse (some d) = none by simp [parse, hc]] at h
    exact absurd h (by simp)
  simp only [parse, hc] at h
  rw [Option.some_inj] at h
  subst h
  have hperm : List.Perm
      (insertionSort (fun a b => a.name ≤ b.name)
        (entries.map (fun kv => parseChecklist kv.1 kv.2)))
      (entries.map (fun kv => parseChecklist kv.1 kv.2)) :=
    insertionSort_perm _ _
  have hmem : ∀ c ∈ (entries.map (fun kv => parseChecklist kv.1 kv.2)),
      c.stats.completed ≤ c.stats.total ∧
      c.stats.pending = c.stats.total - c.stats.completed := by
    intro c hcmem
    obtain ⟨kv, hkv, rfl⟩ := List.mem_map.mp hcmem
    refine ⟨?_, rfl⟩
    exact List.length_filter_le _ _
  have hsub := stats_sum_sub (entries.map (fun kv => parseChecklist kv.1 kv.2))
    (fun c hc2 => (hmem c hc2).1)
  have hpend : ((entries.map (fun kv => parseChecklist kv.1 kv.2)).map
      (fun c => c.stats.pending)).sum =
      ((entries.map (fun kv => parseChecklist kv.1 kv.2)).map
        (fun c => c.stats.total - c.stats.completed)).sum := by
    refine congrArg List.sum (List.map_congr_left ?_)
    intro c hc2
    exact (hmem c hc2).2
  refine ⟨?_, ?_, ?_, ?_, ?_, ?_⟩
  · intro c hcmem
    exact hmem c (hperm.mem_iff.mp hcmem)
  · dsimp only
    rw [hpend, hsub.2]
  · dsimp only
    exact ((hperm.map (fun c => c.stats.total)).sum_eq).symm
  · dsimp only
    exact ((hperm.map (fun c => c.stats.completed)).sum_eq).symm
  · dsimp only
    rw [((hperm.map (fun c => c.stats.pending)).sum_eq)]
  · dsimp only
    split_ifs
    · exfalso
      omega
    · rfl
    · rfl
    · exfalso
      omega

/-- Witness for C10 at a concrete one-checklist daily document. -/
theorem parse_props_witness :
    parse (some (RawDoc.mk (some "2024-03-14") none none
        (some [("1D Apertura", RawChecklist.mk
          (some [RawItem.mk "a" true none none none,
                 RawItem.mk "b" false none none none]))]))) =
      some (ParsedDoc.mk "daily" (some "2024-03-14")
        [ParsedChecklist.mk "1D Apertura" "diario"
          [ParsedItem.mk "a" true none none none,
           ParsedItem.mk "b" false none none none]
          (ChecklistStats.mk 2 1 1 50)]
        (ChecklistStats.mk 2 1 1 50)) ∧
    (ChecklistStats.mk 2 1 1 50).pending =
      (ChecklistStats.mk 2 1 1 50).total - (ChecklistStats.mk 2 1 1 50).completed :=
  ⟨by decide,
   (parse_props
      (some (RawDoc.mk (some "2024-03-14") none none
        (some [("1D Apertura", RawChecklist.mk
          (some [RawItem.mk "a" true none none none,
                 RawItem.mk "b" false none none none]))])))
      (ParsedDoc.mk "daily" (some "2024-03-14")
        [ParsedChecklist.mk "1D Apertura" "diario"
          [ParsedItem.mk "a" true none none none,
           ParsedItem.mk "b" false none none none]
          (ChecklistStats.mk 2 1 1 50)]
        (ChecklistStats.mk 2 1 1 50))
      (by decide)).2.1⟩


/-- String equality via the character list. -/
theorem string_eq_of_toList {a b : String} (h : a.toList = b.toList) : a = b := by
  have := congrArg String.mk h
  exact this

/-- `splitOnChar` never returns the empty list. -/
theorem splitOnChar_ne_nil (sep : Char) (l : List Char) : splitOnChar sep l ≠ [] := by
  cases l with
  | nil => simp [splitOnChar]
  | cons c cs =>
    simp only [splitOnChar]
    rcases splitOnChar sep cs with _ | ⟨h, t⟩
    · simp
    · by_cases hc : c = sep <;> simp [hc]

/-- Pieces of `splitOnChar` do not contain the separator. -/
theorem not_mem_of_mem_splitOnChar (sep : Char) (l : List Char) :
    ∀ p ∈ splitOnChar sep l, sep ∉ p := by
  induction l with
  | nil =>
    intro p hp
    simp [splitOnChar] at hp
    simp [hp]
  | cons c cs ih =>
    intro p hp
    simp only [splitOnChar] at hp
    rcases hr : splitOnChar sep cs with _ | ⟨h, t⟩
    · exact absurd hr (splitOnChar_ne_nil sep cs)
    simp only [hr] at hp
    by_cases hc : c = sep
    · rw [if_pos hc, List.mem_cons] at hp
      rcases hp with hp | hp
      · subst hp
        simp
      · exact ih p (by rw [hr]; exact hp)
    · rw [if_neg hc, List.mem_cons] at hp
      rcases hp with hp | hp
      · subst hp
        intro hmem
        rcases List.mem_cons.mp hmem with hm | hm
        · exact hc hm.symm
        · exact ih h (by rw [hr]; exact List.mem_cons_self h t) hm
      · exact ih p (by rw [hr]; exact List.mem_cons_of_mem h hp)

/-- Intercalating a singleton. -/
theorem intercalate_single {α : Type} (s : List α) (a : List α) :
    List.intercalate s [a] = a := by
  simp [List.intercalate]

/-- Intercalating a cons-cons. -/
theorem intercalate_cons_cons {α : Type} (s a b : List α) (t : List (List α)) :
    List.intercalate s (a :: b :: t) = a ++ s ++ List.intercalate s (b :: t) := by
  simp [List.intercalate, List.intersperse]

/-- Joining the split reconstructs the list. -/
theorem intercalate_splitOnChar (sep : Char) (l : List Char) :
    List.intercalate [sep] (splitOnChar sep l) = l := by
  induction l with
  | nil => simp [splitOnChar, intercalate_single]
  | cons c cs ih =>
    simp only [splitOnChar]
    rcases hr : splitOnChar sep cs with _ | ⟨h, t⟩
    · exact absurd hr (splitOnChar_ne_nil sep cs)
    rw [hr] at ih
    simp only [hr]
    by_cases hc : c = sep
    · rw [if_pos hc, intercalate_cons_cons, ih, hc]
      rfl
    · rw [if_neg hc]
      rcases t with _ | ⟨b, t2⟩
      · rw [intercalate_single] at ih ⊢
        rw [← ih]
      · rw [intercalate_cons_cons] at ih ⊢
        rw [List.cons_append, List.cons_append, ih]

/-- A separator-free list splits into itself. -/
theorem splitOnChar_no_sep (sep : Char) (l : List Char) (h : sep ∉ l) :
    splitOnChar sep l = [l] := by
  induction l with
  | nil => rfl
  | cons c cs ih =>
    have hc : c ≠ sep := fun hh => h (hh ▸ List.mem_cons_self c cs)
    have hcs : sep ∉ cs := fun hh => h (List.mem_cons_of_mem c hh)
    simp only [splitOnChar, ih hcs]
    rw [if_neg hc]

/-- Splitting a separator-free prefix followed by a separator. -/
theorem splitOnChar_append_cons (sep : Char) (p rest : List Char) (h : sep ∉ p) :
    splitOnChar sep (p ++ sep :: rest) = p :: splitOnChar sep rest := by
  induction p with
  | nil =>
    simp only [List.nil_append, splitOnChar]
    rcases hr : splitOnChar sep rest with _ | ⟨h2, t⟩
    · exact absurd hr (splitOnChar_ne_nil sep rest)
    simp only [hr]
    simp
  | cons c p2 ih =>
    have hc : c ≠ sep := fun hh => h (hh ▸ List.mem_cons_self c p2)
    have hp2 : sep ∉ p2 := fun hh => h (List.mem_cons_of_mem c hh)
    simp only [List.cons_append, splitOnChar, List.append_eq, ih hp2]
    rw [if_neg hc]

/-- Splitting an intercalation of separator-free pieces gives them back. -/
theorem splitOnChar_intercalate (sep : Char) (ps : List (List Char))
    (hps : ∀ p ∈ ps, sep ∉ p) (hne : ps ≠ []) :
    splitOnChar sep (List.intercalate [sep] ps) = ps := by
  induction ps with
  | nil => exact absurd rfl hne
  | cons p t ih =>
    rcases t with _ | ⟨b, t2⟩
    · rw [intercalate_single]
      exact splitOnChar_no_sep sep p (hps p (List.mem_cons_self p [] ))
    · rw [intercalate_cons_cons, List.append_assoc, List.singleton_append,
        splitOnChar_append_cons sep p _ (hps p (List.mem_cons_self p _))]
      rw [ih (fun q hq => hps q (List.mem_cons_of_mem p hq)) (by simp)]


/-- A list whose head fails the predicate survives `dropWhile`. -/
theorem dropWhile_eq_self_of_head {α : Type} (p : α → Bool) (l : List α)
    (h : ∀ c, l.head? = some c → p c = false) : l.dropWhile p = l := by
  cases l with
  | nil => rfl
  | cons a t =>
    have ha := h a rfl
    simp [List.dropWhile_cons, ha]

/-- The head left by `dropWhile` fails the predicate. -/
theorem dropWhile_head_false {α : Type} (p : α → Bool) (l : List α) :
    ∀ c, (l.dropWhile p).head? = some c → p c = false := by
  induction l with
  | nil =>
    intro c hc
    exact absurd hc (by simp)
  | cons a t ih =>
    intro c hc
    by_cases ha : p a = true
    · rw [List.dropWhile_cons, if_pos ha] at hc
      exact ih c hc
    · rw [List.dropWhile_cons, if_neg ha, List.head?_cons, Option.some_inj] at hc
      subst hc
      simpa using ha

/-- A list with non-space ends is unchanged by the trim. -/
theorem trimChars_eq_self (l : List Char)
    (h1 : ∀ c, l.head? = some c → isJsSpace c = false)
    (h2 : ∀ c, l.getLast? = some c → isJsSpace c = false) :
    trimChars l = l := by
  unfold trimChars
  rw [dropWhile_eq_self_of_head _ _ h1,
    dropWhile_eq_self_of_head _ _
      (fun c hc => h2 c (by rwa [List.head?_reverse] at hc)),
    List.reverse_reverse]

/-- The head of a trimmed list is not a space. -/
theorem trimChars_head_false (l : List Char) :
    ∀ c, (trimChars l).head? = some c → isJsSpace c = false := by
  intro c hc
  unfold trimChars at hc
  have hsuf : ((l.dropWhile isJsSpace).reverse).dropWhile isJsSpace <:+
      (l.dropWhile isJsSpace).reverse := List.dropWhile_suffix isJsSpace
  obtain ⟨u, hu⟩ := hsuf
  have hX : l.dropWhile isJsSpace =
      ((l.dropWhile isJsSpace).reverse.dropWhile isJsSpace).reverse ++ u.reverse := by
    have h2 := congrArg List.reverse hu
    rw [List.reverse_append, List.reverse_reverse] at h2
    exact h2.symm
  apply dropWhile_head_false isJsSpace l c
  rw [hX, List.head?_append, hc]
  rfl

/-- The last element of a trimmed list is not a space. -/
theorem trimChars_getLast_false (l : List Char) :
    ∀ c, (trimChars l).getLast? = some c → isJsSpace c = false := by
  intro c hc
  unfold trimChars at hc
  rw [List.getLast?_reverse] at hc
  exact dropWhile_head_false _ _ c hc

/-- Trimming is idempotent. -/
theorem trimChars_idem (l : List Char) : trimChars (trimChars l) = trimChars l :=
  trimChars_eq_self _ (trimChars_head_false l) (trimChars_getLast_false l)

/-- Trimming drops a leading space character. -/
theorem trimChars_cons_space (c : Char) (l : List Char) (h : isJsSpace c = true) :
    trimChars (c :: l) = trimChars l := by
  unfold trimChars
  rw [List.dropWhile_cons, if_pos h]

/-- Trimmed characters come from the original list. -/
theorem mem_of_mem_trimChars (l : List Char) (c : Char) (h : c ∈ trimChars l) :
    c ∈ l := by
  unfold trimChars at h
  rw [List.mem_reverse] at h
  have h2 := (List.dropWhile_sublist isJsSpace).mem h
  rw [List.mem_reverse] at h2
  exact (List.dropWhile_sublist isJsSpace).mem h2

/-- The character list of an appended string. -/
theorem toList_append (a b : String) : (a ++ b).toList = a.toList ++ b.toList := rfl

/-- The line list of a ledger content, at the character level. -/
theorem ledgerLines_eq (s : String) :
    ledgerLines s = (splitOnChar '\u000A' (trimChars s.toList)).map String.mk := rfl

/-- The added byte-order mark strips back off. -/
theorem stripLeadingBom_bom_append (x : String) :
    stripLeadingBom ("\uFEFF" ++ x) = x := rfl

/-- Splitting a newline join of newline-free pieces gives the pieces back. -/
theorem splitLines_joinLines (ps : List String) (hne : ps ≠ [])
    (hps : ∀ p ∈ ps, '\u000A' ∉ p.toList) :
    splitLines (joinLines ps) = ps := by
  unfold splitLines joinLines
  rw [show (String.mk (List.intercalate ['\u000A'] (ps.map String.toList))).toList =
      List.intercalate ['\u000A'] (ps.map String.toList) from rfl]
  rw [splitOnChar_intercalate '\u000A' (ps.map String.toList) ?hsep ?hne2]
  · rw [List.map_map]
    have : (String.mk ∘ String.toList) = id := funext (fun s2 => rfl)
    rw [this, List.map_id]
  case hsep =>
    intro q hq
    obtain ⟨p, hp, rfl⟩ := List.mem_map.mp hq
    exact hps p hp
  case hne2 =>
    intro hq
    exact hne (List.map_eq_nil_iff.mp hq)


/-- The filter loop keeps exactly the non-blank trimmed lines whose key
differs from the target. -/
theorem filterMap_keepRow (idx : Nat) (a : String) (ls : List String) :
    ls.filterMap (keepRow idx a) =
      (ls.filterMap
        (fun l => if jsTrim l = "" then none else some (jsTrim l))).filter
        (fun t => !(rowKeyAt idx t == a)) := by
  induction ls with
  | nil => rfl
  | cons l t ih =>
    rw [List.filterMap_cons, List.filterMap_cons]
    by_cases hb : jsTrim l = ""
    · have h1 : keepRow idx a l = none := by
        unfold keepRow
        rw [if_pos hb]
      have h2 : (if jsTrim l = "" then (none : Option String)
          else some (jsTrim l)) = none := if_pos hb
      rw [h1, h2, ih]
    · have h2 : (if jsTrim l = "" then (none : Option String)
          else some (jsTrim l)) = some (jsTrim l) := if_neg hb
      by_cases hk : jsTrim ((splitCommas (jsTrim l)).getD idx "") = a
      · have h1 : keepRow idx a l = none := by
          unfold keepRow
          rw [if_neg hb]
          exact if_pos hk
        rw [h1, h2, ih, List.filter_cons,
          show (!(rowKeyAt idx (jsTrim l) == a)) = false by
            rw [show rowKeyAt idx (jsTrim l) = a from hk]
            simp]
        rw [if_neg (by decide)]
      · have h1 : keepRow idx a l = some (jsTrim l) := by
          unfold keepRow
          rw [if_neg hb]
          exact if_neg hk
        rw [h1, h2, ih, List.filter_cons,
          show (!(rowKeyAt idx (jsTrim l) == a)) = true by
            rw [show (rowKeyAt idx (jsTrim l) == a) = false from
              beq_eq_false_iff_ne.mpr hk]
            rfl]
        rw [if_pos rfl]

/-- A kept filterMap: when every element maps to itself, nothing changes. -/
theorem filterMap_eq_self_of_some {α : Type} (f : α → Option α) (l : List α)
    (h : ∀ x ∈ l, f x = some x) : l.filterMap f = l := by
  induction l with
  | nil => rfl
  | cons x t ih =>
    rw [List.filterMap_cons, h x (List.mem_cons_self x t),
      ih (fun y hy => h y (List.mem_cons_of_mem x hy))]

/-- The last element of an intercalation is the last element of its last
nonempty piece. -/
theorem getLast?_intercalate (sep : Char) (ps : List (List Char)) (q : List Char)
    (hlast : ps.getLast? = some q) (hq : q ≠ []) :
    (List.intercalate [sep] ps).getLast? = q.getLast? := by
  induction ps with
  | nil => exact absurd hlast (by simp)
  | cons p t ih =>
    rcases t with _ | ⟨b, t2⟩
    · rw [intercalate_single]
      rw [show ([p] : List (List Char)).getLast? = some p from rfl,
        Option.some_inj] at hlast
      rw [hlast]
    · have hlast2 : (b :: t2).getLast? = some q := by
        rwa [List.getLast?_cons_cons] at hlast
      rcases hq2 : q.getLast? with _ | c
      · exact absurd (List.getLast?_eq_none_iff.mp hq2) hq
      rw [intercalate_cons_cons, List.append_assoc, List.getLast?_append,
        List.getLast?_append, ih hlast2, hq2]
      rfl

/-- A ledger with at least two lines has a nonempty non-space-leading header
without newlines, and trimmed nonempty newline-free data rows. -/
theorem ledger_shape (s : String) (hlen : 2 ≤ (ledgerLines s).length) :
    ledgerHeader s ≠ "" ∧
    (∀ c, (ledgerHeader s).toList.head? = some c → isJsSpace c = false) ∧
    '\u000A' ∉ (ledgerHeader s).toList ∧
    (∀ t ∈ ledgerDataRows s, jsTrim t = t ∧ t ≠ "" ∧ '\u000A' ∉ t.toList) := by
  rcases hp : splitOnChar '\u000A' (trimChars s.toList) with _ | ⟨h, rest⟩
  · exact absurd hp (splitOnChar_ne_nil _ _)
  have hlines : ledgerLines s = String.mk h :: rest.map String.mk := by
    rw [ledgerLines_eq, hp, List.map_cons]
  have hheader : ledgerHeader s = String.mk h := by
    unfold ledgerHeader
    rw [hlines]
    rfl
  have hrest : rest ≠ [] := by
    intro hr
    rw [hr] at hlines
    rw [hlines] at hlen
    simp at hlen
  have hT := intercalate_splitOnChar '\u000A' (trimChars s.toList)
  rw [hp] at hT
  have hhne : h ≠ [] := by
    intro hh
    subst hh
    rcases rest with _ | ⟨b, t2⟩
    · exact hrest rfl
    · rw [intercalate_cons_cons] at hT
      have : (trimChars s.toList).head? = some '\u000A' := by
        rw [← hT]
        rfl
      have := trimChars_head_false s.toList '\u000A' this
      exact absurd this (by decide)
  have hhead : ∀ c, h.head? = some c → isJsSpace c = false := by
    intro c hc
    apply trimChars_head_false s.toList c
    rw [← hT]
    rcases rest with _ | ⟨b, t2⟩
    · rw [intercalate_single]
      exact hc
    · rw [intercalate_cons_cons, List.append_assoc, List.head?_append, hc]
      rfl
  have hno : '\u000A' ∉ h :=
    not_mem_of_mem_splitOnChar _ _ h (hp ▸ List.mem_cons_self h rest)
  refine ⟨?_, ?_, ?_, ?_⟩
  · rw [hheader]
    intro hh
    apply hhne
    have := congrArg String.toList hh
    exact this
  · rw [hheader]
    exact hhead
  · rw [hheader]
    exact hno
  · intro t ht
    unfold ledgerDataRows at ht
    rw [hlines] at ht
    rw [show (String.mk h :: rest.map String.mk).tail = rest.map String.mk
      from rfl] at ht
    obtain ⟨l, hl, hsome⟩ := List.mem_filterMap.mp ht
    by_cases hb : jsTrim l = ""
    · rw [if_pos hb] at hsome
      exact absurd hsome (by simp)
    · rw [if_neg hb] at hsome
      rw [Option.some_inj] at hsome
      subst hsome
      obtain ⟨pl, hpl, rfl⟩ := List.mem_map.mp hl
      refine ⟨?_, hb, ?_⟩
      · apply string_eq_of_toList
        exact trimChars_idem (String.mk pl).toList
      · intro hmem
        have hplmem : pl ∈ splitOnChar '\u000A' (trimChars s.toList) := by
          rw [hp]
          exact List.mem_cons_of_mem h hpl
        have hnopl := not_mem_of_mem_splitOnChar _ _ pl hplmem
        have : '\u000A' ∈ pl := mem_of_mem_trimChars _ _ hmem
        exact hnopl this


/-- The upload produced for a well-formed ledger: header plus the data rows
whose key differs from the target. -/
theorem removeDiscrepanciaCsv_upload (s a : String) (idx : Nat)
    (hidx : articuloIndex (ledgerHeader s) = some idx)
    (hlen : 2 ≤ (ledgerLines s).length) :
    removeDiscrepanciaCsv s a =
      RemoveResult.upload (serializeLedger (ledgerHeader s)
        ((ledgerDataRows s).filter (fun t => !(rowKeyAt idx t == a)))) := by
  unfold ledgerHeader at hidx
  simp only [removeDiscrepanciaCsv]
  rw [if_neg (by omega)]
  simp only [hidx]
  rw [filterMap_keepRow]
  rfl

/-- The element reported by `getLast?` is a member. -/
theorem mem_of_getLast_opt {α : Type} {l : List α} {a : α}
    (h : l.getLast? = some a) : a ∈ l := by
  induction l with
  | nil => exact absurd h (by simp)
  | cons x t ih =>
    rcases t with _ | ⟨b, t2⟩
    · rw [show ([x] : List α).getLast? = some x from rfl, Option.some_inj] at h
      subst h
      exact List.mem_cons_self x []
    · rw [List.getLast?_cons_cons] at h
      exact List.mem_cons_of_mem x (ih h)

/-- Reparsing an uploaded ledger: the stored header and data lines are exactly
the serialized ones, and the full trim-and-split parse recovers them (or
collapses to a single line when nothing was kept). -/
theorem serializeLedger_reparse (header : String) (kept : List String)
    (hh1 : header ≠ "")
    (hh2 : ∀ c, header.toList.head? = some c → isJsSpace c = false)
    (hh3 : '\u000A' ∉ header.toList)
    (hkept : ∀ t ∈ kept, jsTrim t = t ∧ t ≠ "" ∧ '\u000A' ∉ t.toList) :
    uploadedHeader (serializeLedger header kept) = header ∧
    uploadedDataRows (serializeLedger header kept) = kept ∧
    (kept ≠ [] → ledgerLines (serializeLedger header kept) = header :: kept) ∧
    (kept = [] → (ledgerLines (serializeLedger header kept)).length < 2) := by
  have hpieces : ∀ p ∈ header :: kept, '\u000A' ∉ p.toList := by
    intro p hp
    rcases List.mem_cons.mp hp with rfl | hp2
    · exact hh3
    · exact (hkept p hp2).2.2
  have hsplit : splitLines (joinLines (header :: kept)) = header :: kept :=
    splitLines_joinLines _ (by simp) hpieces
  refine ⟨?_, ?_, ?_, ?_⟩
  · unfold uploadedHeader serializeLedger
    rw [stripLeadingBom_bom_append, hsplit]
    rfl
  · unfold uploadedDataRows serializeLedger
    rw [stripLeadingBom_bom_append, hsplit]
    rfl
  · intro hkne
    obtain ⟨lk, hlk⟩ : ∃ lk, kept.getLast? = some lk := by
      rcases hlast : kept.getLast? with _ | lk
      · exact absurd (List.getLast?_eq_none_iff.mp hlast) hkne
      · exact ⟨lk, rfl⟩
    have hlkmem : lk ∈ kept := mem_of_getLast_opt hlk
    have hlkprops := hkept lk hlkmem
    have hheadL : header.toList ≠ [] := by
      intro hh
      apply hh1
      apply string_eq_of_toList
      rw [hh]
      rfl
    have hpayload : (joinLines (header :: kept)).toList =
        List.intercalate ['\u000A'] ((header :: kept).map String.toList) := rfl
    have htrim : jsTrim (serializeLedger header kept) = joinLines (header :: kept) := by
      apply string_eq_of_toList
      show trimChars (serializeLedger header kept).toList =
        (joinLines (header :: kept)).toList
      have hser : (serializeLedger header kept).toList =
          '\uFEFF' :: (joinLines (header :: kept)).toList := rfl
      rw [hser, trimChars_cons_space _ _ (by decide)]
      apply trimChars_eq_self
      · intro c hc
        rw [hpayload] at hc
        rcases kept with _ | ⟨b, t2⟩
        · exact absurd rfl hkne
        rw [List.map_cons, List.map_cons, intercalate_cons_cons,
          List.append_assoc, List.head?_append] at hc
        rcases hhl : header.toList.head? with _ | d
        · exact absurd (List.head?_eq_none_iff.mp hhl) hheadL
        · rw [hhl, option_some_or, Option.some_inj] at hc
          subst hc
          exact hh2 _ hhl
      · intro c hc
        rw [hpayload] at hc
        have hmapLast : ((header :: kept).map String.toList).getLast? =
            some lk.toList := by
          rw [getLast?_map, getLast?_cons_eq_or, hlk]
          rfl
        have hlkne : lk.toList ≠ [] := by
          intro hh
          apply hlkprops.2.1
          apply string_eq_of_toList
          rw [hh]
          rfl
        rw [getLast?_intercalate '\u000A' _ lk.toList hmapLast hlkne] at hc
        have hlktrim : lk.toList = trimChars lk.toList := by
          have := congrArg String.toList hlkprops.1
          exact this.symm
        rw [hlktrim] at hc
        exact trimChars_getLast_false lk.toList c hc
    show splitLines (jsTrim (serializeLedger header kept)) = header :: kept
    rw [htrim, hsplit]
  · intro hk0
    subst hk0
    have hser : (serializeLedger header []).toList = '\uFEFF' :: header.toList := by
      show ('\uFEFF' :: (joinLines [header]).toList) = '\uFEFF' :: header.toList
      congr 1
      show List.intercalate ['\u000A'] [header.toList] = header.toList
      exact intercalate_single _ _
    show (splitLines (jsTrim (serializeLedger header []))).length < 2
    have : (jsTrim (serializeLedger header [])).toList = trimChars header.toList := by
      show trimChars (serializeLedger header []).toList = trimChars header.toList
      rw [hser, trimChars_cons_space _ _ (by decide)]
    unfold splitLines
    rw [this]
    rw [splitOnChar_no_sep _ _
      (fun hmem => hh3 (mem_of_mem_trimChars _ _ hmem))]
    simp

/-- Applying the removal to an uploaded ledger whose kept rows all miss the
key is a no-op success: early success when nothing was kept, or an upload of
the identical content. -/
theorem serializeLedger_removal_noop (header : String) (kept : List String)
    (a : String) (idx : Nat)
    (hidx : articuloIndex header = some idx)
    (hh1 : header ≠ "")
    (hh2 : ∀ c, header.toList.head? = some c → isJsSpace c = false)
    (hh3 : '\u000A' ∉ header.toList)
    (hkept : ∀ t ∈ kept, jsTrim t = t ∧ t ≠ "" ∧ '\u000A' ∉ t.toList)
    (hkey : ∀ t ∈ kept, ¬ (rowKeyAt idx t = a)) :
    removeDiscrepanciaCsv (serializeLedger header kept) a = RemoveResult.noUpload ∨
    removeDiscrepanciaCsv (serializeLedger header kept) a =
      RemoveResult.upload (serializeLedger header kept) := by
  have hrep := serializeLedger_reparse header kept hh1 hh2 hh3 hkept
  by_cases hk : kept = []
  · left
    have hlt := hrep.2.2.2 hk
    unfold removeDiscrepanciaCsv
    rw [if_pos hlt]
  · right
    have hlines := hrep.2.2.1 hk
    have hlenk : 1 ≤ kept.length := List.length_pos.mpr hk
    simp only [removeDiscrepanciaCsv, hlines]
    rw [if_neg (by simp only [List.length_cons]; omega)]
    have hhd : (header :: kept).headD "" = header := rfl
    simp only [hhd, hidx]
    rw [show (header :: kept).tail = kept from rfl]
    rw [filterMap_eq_self_of_some _ kept ?hself]
    case hself =>
      intro t ht
      have hprops := hkept t ht
      have hkeyt := hkey t ht
      unfold keepRow
      rw [hprops.1, if_neg hprops.2.1]
      rw [if_neg (by
        rw [show rowKeyAt idx t =
          jsTrim ((splitCommas t).getD idx "") from rfl] at hkeyt
        exact hkeyt)]


/-- A ledger with a data row has at least two lines. -/
theorem dataRows_ne_nil_lines (s : String) (h : ledgerDataRows s ≠ []) :
    2 ≤ (ledgerLines s).length := by
  by_contra hlt
  apply h
  have htail : (ledgerLines s).tail = [] := by
    have hl := List.length_tail (ledgerLines s)
    rw [← List.length_eq_zero]
    omega
  unfold ledgerDataRows
  rw [htail]
  rfl

/-- Kept and dropped rows partition the row count. -/
theorem length_filter_not_add_countP {α : Type} (p : α → Bool) (l : List α) :
    (l.filter (fun t => !(p t))).length + l.countP p = l.length := by
  induction l with
  | nil => rfl
  | cons x t ih =>
    rw [List.filter_cons, List.countP_cons]
    by_cases hx : p x = true
    · rw [hx, show (!true) = false from rfl, if_neg (by decide), if_pos rfl]
      simp only [List.length_cons]
      omega
    · have hx2 : p x = false := by simpa using hx
      rw [hx2, show (!false) = true from rfl, if_pos rfl, if_neg (by decide)]
      simp only [List.length_cons]
      omega

/-- Under the one-row-per-key invariant, a present key occurs exactly once. -/
theorem countP_key_eq_one (idx : Nat) (a : String) (l : List String)
    (hp : l.Pairwise (fun r1 r2 => rowKeyAt idx r1 ≠ rowKeyAt idx r2))
    (hm : ∃ r ∈ l, rowKeyAt idx r = a) :
    l.countP (fun r => rowKeyAt idx r == a) = 1 := by
  induction l with
  | nil =>
    obtain ⟨r, hr, -⟩ := hm
    exact absurd hr (List.not_mem_nil r)
  | cons x t ih =>
    rw [List.pairwise_cons] at hp
    obtain ⟨hx, ht⟩ := hp
    obtain ⟨r, hr, hk⟩ := hm
    rw [List.countP_cons]
    rcases List.mem_cons.mp hr with rfl | hr2
    · have ht0 : t.countP (fun r2 => rowKeyAt idx r2 == a) = 0 := by
        rw [List.countP_eq_zero]
        intro q hq
        simp only [beq_iff_eq]
        intro hqa
        exact (hx q hq) (hk.trans hqa.symm)
      rw [ht0, show (rowKeyAt idx r == a) = true from beq_iff_eq.mpr hk,
        if_pos rfl]
    · have hxa : (rowKeyAt idx x == a) = false := by
        rw [beq_eq_false_iff_ne]
        intro hh
        exact (hx r hr2) (hh.trans hk.symm)
      rw [ih ht ⟨r, hr2, hk⟩, hxa, if_neg (by decide)]

/-- C4.  For every ledger content whose header has the key column but none of
whose data rows carries the target key, removeDiscrepancia succeeds: either it
returns before uploading (fewer than two lines), or it uploads a ledger whose
stored header is the original header and whose stored data lines are exactly
the original data rows - none added, removed or altered (rows are compared in
their trimmed form; the upload re-serialization normalizes the BOM and drops
blank lines, as documented). -/
theorem removeDiscrepancia_absent_key (s a : String) (idx : Nat)
    (hidx : articuloIndex (ledgerHeader s) = some idx)
    (hnone : ∀ r ∈ ledgerDataRows s, rowKeyAt idx r ≠ a) :
    removeDiscrepanciaCsv s a = RemoveResult.noUpload ∨
    (removeDiscrepanciaCsv s a =
        RemoveResult.upload (serializeLedger (ledgerHeader s) (ledgerDataRows s)) ∧
      uploadedHeader (serializeLedger (ledgerHeader s) (ledgerDataRows s)) =
        ledgerHeader s ∧
      uploadedDataRows (serializeLedger (ledgerHeader s) (ledgerDataRows s)) =
        ledgerDataRows s) := by
  by_cases hlen : (ledgerLines s).length < 2
  · left
    unfold removeDiscrepanciaCsv
    rw [if_pos hlen]
  · right
    have hlen2 : 2 ≤ (ledgerLines s).length := by omega
    have hfilter : (ledgerDataRows s).filter (fun t => !(rowKeyAt idx t == a)) =
        ledgerDataRows s := by
      rw [List.filter_eq_self]
      intro t ht
      rw [show (rowKeyAt idx t == a) = false from
        beq_eq_false_iff_ne.mpr (hnone t ht)]
      rfl
    have hup := removeDiscrepanciaCsv_upload s a idx hidx hlen2
    rw [hfilter] at hup
    have hshape := ledger_shape s hlen2
    have hrep := serializeLedger_reparse (ledgerHeader s) (ledgerDataRows s)
      hshape.1 hshape.2.1 hshape.2.2.1 hshape.2.2.2
    exact ⟨hup, hrep.1, hrep.2.1⟩

/-- Witness for C4 on a two-row ledger and an absent key. -/
theorem removeDiscrepancia_absent_key_witness :
    articuloIndex (ledgerHeader "Articulo,Tienda\u000A100,53") = some 0 ∧
    (∀ r ∈ ledgerDataRows "Articulo,Tienda\u000A100,53",
      rowKeyAt 0 r ≠ "999") ∧
    (removeDiscrepanciaCsv "Articulo,Tienda\u000A100,53" "999" =
        RemoveResult.noUpload ∨
      (removeDiscrepanciaCsv "Articulo,Tienda\u000A100,53" "999" =
          RemoveResult.upload (serializeLedger
            (ledgerHeader "Articulo,Tienda\u000A100,53")
            (ledgerDataRows "Articulo,Tienda\u000A100,53")) ∧
        uploadedHeader (serializeLedger
            (ledgerHeader "Articulo,Tienda\u000A100,53")
            (ledgerDataRows "Articulo,Tienda\u000A100,53")) =
          ledgerHeader "Articulo,Tienda\u000A100,53" ∧
        uploadedDataRows (serializeLedger
            (ledgerHeader "Articulo,Tienda\u000A100,53")
            (ledgerDataRows "Articulo,Tienda\u000A100,53")) =
          ledgerDataRows "Articulo,Tienda\u000A100,53")) :=
  ⟨by decide, by decide,
   removeDiscrepancia_absent_key "Articulo,Tienda\u000A100,53" "999" 0
     (by decide) (by decide)⟩

/-- C3.  For every ledger satisfying the one-row-per-key invariant and
containing a data row with the target key, removeDiscrepancia uploads a ledger
with the original header, exactly one data row fewer, and no row carrying the
key; applying the same removal to the uploaded content is a no-op that still
succeeds (an early success, or an upload of the identical content). -/
theorem removeDiscrepancia_existing_key (s a : String) (idx : Nat)
    (hidx : articuloIndex (ledgerHeader s) = some idx)
    (hinv : (ledgerDataRows s).Pairwise
      (fun r1 r2 => rowKeyAt idx r1 ≠ rowKeyAt idx r2))
    (hmem : ∃ r ∈ ledgerDataRows s, rowKeyAt idx r = a) :
    ∃ kept,
      removeDiscrepanciaCsv s a =
        RemoveResult.upload (serializeLedger (ledgerHeader s) kept) ∧
      uploadedHeader (serializeLedger (ledgerHeader s) kept) = ledgerHeader s ∧
      uploadedDataRows (serializeLedger (ledgerHeader s) kept) = kept ∧
      kept.length + 1 = (ledgerDataRows s).length ∧
      (∀ r ∈ kept, rowKeyAt idx r ≠ a) ∧
      (removeDiscrepanciaCsv (serializeLedger (ledgerHeader s) kept) a =
          RemoveResult.noUpload ∨
        removeDiscrepanciaCsv (serializeLedger (ledgerHeader s) kept) a =
          RemoveResult.upload (serializeLedger (ledgerHeader s) kept)) := by
  obtain ⟨r0, hr0, hk0⟩ := hmem
  have hne : ledgerDataRows s ≠ [] := by
    intro hh
    rw [hh] at hr0
    exact (List.not_mem_nil r0) hr0
  have hlen2 := dataRows_ne_nil_lines s hne
  have hup := removeDiscrepanciaCsv_upload s a idx hidx hlen2
  have hshape := ledger_shape s hlen2
  have hkeptprops : ∀ t ∈ (ledgerDataRows s).filter
      (fun t => !(rowKeyAt idx t == a)),
      jsTrim t = t ∧ t ≠ "" ∧ '\u000A' ∉ t.toList := by
    intro t ht
    exact hshape.2.2.2 t (List.mem_of_mem_filter ht)
  have hkeptkey : ∀ t ∈ (ledgerDataRows s).filter
      (fun t => !(rowKeyAt idx t == a)), ¬ (rowKeyAt idx t = a) := by
    intro t ht
    have hf := List.of_mem_filter ht
    intro hh
    rw [show (rowKeyAt idx t == a) = true from beq_iff_eq.mpr hh] at hf
    exact absurd hf (by decide)
  have hrep := serializeLedger_reparse (ledgerHeader s)
    ((ledgerDataRows s).filter (fun t => !(rowKeyAt idx t == a)))
    hshape.1 hshape.2.1 hshape.2.2.1 hkeptprops
  have hcount : (ledgerDataRows s).countP (fun r => rowKeyAt idx r == a) = 1 :=
    countP_key_eq_one idx a _ hinv ⟨r0, hr0, hk0⟩
  have hlenk := length_filter_not_add_countP
    (fun r => rowKeyAt idx r == a) (ledgerDataRows s)
  rw [hcount] at hlenk
  have hnoop := serializeLedger_removal_noop (ledgerHeader s)
    ((ledgerDataRows s).filter (fun t => !(rowKeyAt idx t == a))) a idx
    hidx hshape.1 hshape.2.1 hshape.2.2.1 hkeptprops hkeptkey
  exact ⟨(ledgerDataRows s).filter (fun t => !(rowKeyAt idx t == a)),
    hup, hrep.1, hrep.2.1, hlenk, hkeptkey, hnoop⟩

/-- Witness for C3 on the spec scenario ledger. -/
theorem removeDiscrepancia_existing_key_witness :
    articuloIndex
      (ledgerHeader "Articulo,Tienda,Diferencia\u000A100,53,-2\u000A101,53,3") =
        some 0 ∧
    (ledgerDataRows
        "Articulo,Tienda,Diferencia\u000A100,53,-2\u000A101,53,3").Pairwise
      (fun r1 r2 => rowKeyAt 0 r1 ≠ rowKeyAt 0 r2) ∧
    (∃ r ∈ ledgerDataRows
        "Articulo,Tienda,Diferencia\u000A100,53,-2\u000A101,53,3",
      rowKeyAt 0 r = "100") ∧
    (∃ kept,
      removeDiscrepanciaCsv
          "Articulo,Tienda,Diferencia\u000A100,53,-2\u000A101,53,3" "100" =
        RemoveResult.upload (serializeLedger
          (ledgerHeader "Articulo,Tienda,Diferencia\u000A100,53,-2\u000A101,53,3")
          kept) ∧
      uploadedHeader (serializeLedger
          (ledgerHeader "Articulo,Tienda,Diferencia\u000A100,53,-2\u000A101,53,3")
          kept) =
        ledgerHeader "Articulo,Tienda,Diferencia\u000A100,53,-2\u000A101,53,3" ∧
      uploadedDataRows (serializeLedger
          (ledgerHeader "Articulo,Tienda,Diferencia\u000A100,53,-2\u000A101,53,3")
          kept) = kept ∧
      kept.length + 1 =
        (ledgerDataRows
          "Articulo,Tienda,Diferencia\u000A100,53,-2\u000A101,53,3").length ∧
      (∀ r ∈ kept, rowKeyAt 0 r ≠ "100") ∧
      (removeDiscrepanciaCsv (serializeLedger
            (ledgerHeader
              "Articulo,Tienda,Diferencia\u000A100,53,-2\u000A101,53,3")
            kept) "100" =
          RemoveResult.noUpload ∨
        removeDiscrepanciaCsv (serializeLedger
            (ledgerHeader
              "Articulo,Tienda,Diferencia\u000A100,53,-2\u000A101,53,3")
            kept) "100" =
          RemoveResult.upload (serializeLedger
            (ledgerHeader
              "Articulo,Tienda,Diferencia\u000A100,53,-2\u000A101,53,3")
            kept))) :=
  ⟨by decide, by decide, by decide,
   removeDiscrepancia_existing_key
     "Articulo,Tienda,Diferencia\u000A100,53,-2\u000A101,53,3" "100" 0
     (by decide) (by decide) (by decide)⟩

end Bop
